import Mathlib

/-!
# Weighted lottery over token holders (`main.go`)

A shallow embedding of `getTokenBalance`, `getHoldersBalances` and
`weightedRandomSelection`, followed by the properties established for them.

Modelling conventions.

* `*big.Int` values are unbounded integers (`Int`); a nil pointer is `none`.
* A Go `map` is an association list whose keys are pairwise distinct; a write
  `m[k] = v` is `GoMap.set`.  The order in which `range` visits a map is not
  fixed by the language, so it is an input of the model (`Runtime.rangeOrder`).
* The outer loop of `weightedRandomSelection` has no static bound, so it is run
  with a fuel counting loop iterations; `none` means the fuel ran out.
* A run-time panic (nil dereference inside `big.Int.Add`) is `Except.error`.
* To follow which `big.Int` values the sampler overwrites, it is embedded a second time
  with every `*big.Int` a location of a heap (`weightedRandomSelectionMem`);
  `selectionMem_refines` relates the two embeddings.
-/

namespace FordaosWorld

/-- An account or contract identifier (`common.Address`), compared by equality. -/
abbrev Address := Nat

/-- One byte of contract return data. -/
abbrev Byte := Fin 256

/-- The error value returned by a failed contract call. -/
abbrev CallError := String

/-- The three contract addresses declared at the top of `main.go`; their values are
placeholders in the source, so they are parameters here. -/
structure Contracts where
  ARContractAddress : Address
  AISTRContractAddress : Address
  ALCHContractAddress : Address

/-- The ledger view behind `client.CallContract`: for a contract, the holder encoded in
the `balanceOf` call data and a block number, either return data or an error. -/
abbrev Client := Address → Address → Int → Except CallError (List Byte)

/-- The value of `map[string]*big.Int{"AR": _, "AISTR": _, "ALCH": _}` stored per holder:
the three keys are present and their pointers are not nil, as `getHoldersBalances`
stores them. -/
structure Balances where
  AR : Int
  AISTR : Int
  ALCH : Int
deriving DecidableEq, Repr

/-- The only run-time failure of the modelled code. -/
inductive Panic where
  | nilDereference
deriving DecidableEq, Repr

/-- A Go map as an association list with pairwise distinct keys. -/
abbrev GoMap (κ ν : Type) := List (κ × ν)

/-- The map write `m[k] = v`: overwrite the entry of `k` or add one. -/
def GoMap.set {κ ν : Type} [DecidableEq κ] : GoMap κ ν → κ → ν → GoMap κ ν
  | [], k, v => [(k, v)]
  | (k', v') :: rest, k, v =>
    if k' = k then (k, v) :: rest else (k', v') :: GoMap.set rest k v

/-- The map read `m[k]`. -/
def GoMap.get {κ ν : Type} [DecidableEq κ] : GoMap κ ν → κ → Option ν
  | [], _ => none
  | (k', v') :: rest, k => if k' = k then some v' else GoMap.get rest k

/-- The keys of a map. -/
def GoMap.keys {κ ν : Type} (m : GoMap κ ν) : List κ := m.map Prod.fst

/-- The holder pool `map[common.Address]map[string]*big.Int`. -/
abbrev Pool := GoMap Address Balances

/-- `big.Int.SetBytes`: the bytes read as a big-endian unsigned integer. -/
def setBytes (buf : List Byte) : Int :=
  ((buf.foldl (fun acc b => acc * 256 + b.val) 0 : Nat) : Int)

/-- `getTokenBalance`: the ABI is a constant and packing `balanceOf` cannot fail, so the
only failure is the one of `CallContract`; on success the return data is decoded. -/
def getTokenBalance (client : Client) (contractAddress holderAddress : Address)
    (blockNumber : Int) : Except CallError Int :=
  match client contractAddress holderAddress blockNumber with
  | .error err => .error err
  | .ok result => .ok (setBytes result)

/-- The first result of a call whose error is discarded with `_`: nil on failure. -/
def dropErr (res : Except CallError Int) : Option Int :=
  match res with
  | .ok balance => some balance
  | .error _ => none

/-- `big.Int.Add` on two pointers: dereferencing a nil operand panics. -/
def bigAdd (x y : Option Int) : Except Panic Int :=
  match x, y with
  | some a, some b => .ok (a + b)
  | _, _ => .error .nilDereference

/-- Lines 64-65: `totalBalance := new(big.Int).Add(arBalance, aistrBalance)` followed by
`totalBalance.Add(totalBalance, alchBalance)`. -/
def totalBalance (arBalance aistrBalance alchBalance : Option Int) : Except Panic Int :=
  match bigAdd arBalance aistrBalance with
  | .error p => .error p
  | .ok partialSum => bigAdd (some partialSum) alchBalance

/-- One iteration of the loop of `getHoldersBalances` (lines 59-74). The three balances
are not nil where they are stored, since both additions have succeeded. -/
def holdersStep (c : Contracts) (client : Client) (blockNumber : Int)
    (holders : Pool) (address : Address) : Except Panic Pool :=
  let arBalance := dropErr (getTokenBalance client c.ARContractAddress address blockNumber)
  let aistrBalance := dropErr (getTokenBalance client c.AISTRContractAddress address blockNumber)
  let alchBalance := dropErr (getTokenBalance client c.ALCHContractAddress address blockNumber)
  match totalBalance arBalance aistrBalance alchBalance with
  | .error p => .error p
  | .ok total =>
    if total > 0 then
      .ok (GoMap.set holders address
        ⟨arBalance.getD 0, aistrBalance.getD 0, alchBalance.getD 0⟩)
    else .ok holders

/-- The loop of `getHoldersBalances` over the remaining candidates. -/
def holdersLoop (c : Contracts) (client : Client) (blockNumber : Int) :
    Pool → List Address → Except Panic Pool
  | holders, [] => .ok holders
  | holders, address :: rest =>
    match holdersStep c client blockNumber holders address with
    | .error p => .error p
    | .ok holders' => holdersLoop c client blockNumber holders' rest

/-- `getHoldersBalances`: start from the empty map and process the candidates in order. -/
def getHoldersBalances (c : Contracts) (client : Client) (blockNumber : Int)
    (holderAddresses : List Address) : Except Panic Pool :=
  holdersLoop c client blockNumber [] holderAddresses

/-- The weight of one entry, lines 86-87: `AR + AISTR`, then `+ ALCH`. -/
def weightOf (balances : Balances) : Int :=
  (balances.AR + balances.AISTR) + balances.ALCH

/-- The first loop of `weightedRandomSelection` (lines 85-90), over the entries of
`holders` in the order `range` yields them: it fills `weights` and sums `totalWeight`. -/
def buildWeights : List (Address × Balances) → GoMap Address Int → Int → GoMap Address Int × Int
  | [], weights, totalWeight => (weights, totalWeight)
  | (address, balances) :: rest, weights, totalWeight =>
    let weight := weightOf balances
    buildWeights rest (GoMap.set weights address weight) (totalWeight + weight)

/-- `big.Int.Rand(src, n)`: `0` when `n ≤ 0`, otherwise a value of `[0, n)` determined by
the source; `raw` is what the source supplies. -/
def bigRand (raw : Nat) (n : Int) : Int :=
  if n ≤ 0 then 0 else (raw : Int) % n

/-- The inner loop (lines 97-103): add each weight to the running sum and stop at the
first entry with `r < cumulativeWeight`; `none` when the loop ends without a `break`. -/
def scan (r : Int) : List (Address × Int) → Int → Option Address
  | [], _ => none
  | (address, weight) :: rest, cumulativeWeight =>
    if r < cumulativeWeight + weight then some address
    else scan r rest (cumulativeWeight + weight)

/-- What the run does not control: the order of each `range weights`, the clock read by
`time.Now().UnixNano()` at each draw, and the generator a seed gives rise to. -/
structure Runtime where
  rangeOrder : Nat → GoMap Address Int → List (Address × Int)
  now : Nat → Int
  source : Int → Nat

/-- The outer loop (lines 93-104). `t` counts the iterations made so far; each iteration
builds a source seeded with the clock reading, draws `r` below `totalWeight` and scans. -/
def drawLoop (rt : Runtime) (weights : GoMap Address Int) (totalWeight : Int)
    (numWinners : Int) : Nat → Nat → List Address → Option (List Address)
  | 0, _, winners => if (winners.length : Int) < numWinners then none else some winners
  | fuel + 1, t, winners =>
    if (winners.length : Int) < numWinners then
      let r := bigRand (rt.source (rt.now t)) totalWeight
      match scan r (rt.rangeOrder t weights) 0 with
      | some address => drawLoop rt weights totalWeight numWinners fuel (t + 1) (winners ++ [address])
      | none => drawLoop rt weights totalWeight numWinners fuel (t + 1) winners
    else some winners

/-- `weightedRandomSelection`. `holdersOrder` lists the entries of `holders` in the order
the first `range` yields them. The global `rand.Seed` of line 92 feeds no draw: every
draw reads from a source of its own (line 94). -/
def weightedRandomSelection (rt : Runtime) (holdersOrder : List (Address × Balances))
    (numWinners : Int) (fuel : Nat) : Option (List Address) :=
  let built := buildWeights holdersOrder [] 0
  drawLoop rt built.1 built.2 numWinners fuel 0 []

/-- A legitimate `range`: every enumeration is a rearrangement of the map's entries. -/
def Runtime.Fair (rt : Runtime) : Prop :=
  ∀ t m, (rt.rangeOrder t m).Perm m

/-- A runtime that enumerates maps in stored order and draws `raw t` at iteration `t`. -/
def Runtime.ofDraws (raw : Nat → Nat) : Runtime :=
  ⟨fun _ m => m, fun t => (t : Int), fun s => raw s.toNat⟩

/-- A runtime that enumerates maps in reverse stored order. -/
def Runtime.reversed (raw : Nat → Nat) : Runtime :=
  ⟨fun _ m => m.reverse, fun t => (t : Int), fun s => raw s.toNat⟩

/-- The address appended by iteration `t` of the outer loop, when its scan breaks. -/
def drawAt (rt : Runtime) (weights : GoMap Address Int) (totalWeight : Int) (t : Nat) :
    Option Address :=
  scan (bigRand (rt.source (rt.now t)) totalWeight) (rt.rangeOrder t weights) 0

/-- The weights map of a pool whose keys are distinct, in the pool's stored order. -/
def weightsOf (holders : List (Address × Balances)) : List (Address × Int) :=
  holders.map (fun e => (e.1, weightOf e.2))

/-- The sum of the weights of a list of entries. -/
def sumWeights (l : List (Address × Int)) : Int := (l.map Prod.snd).sum

/-- Two holders with one token each. -/
def poolTwo : Pool := [(1, ⟨1, 0, 0⟩), (2, ⟨0, 1, 0⟩)]

/-- A single holder with one token. -/
def poolOne : Pool := [(1, ⟨1, 0, 0⟩)]

/-- Two holders, one of which holds nothing (as a caller other than
`getHoldersBalances` may pass). -/
def poolWithZero : Pool := [(1, ⟨0, 0, 0⟩), (2, ⟨0, 3, 1⟩)]

/-- The number of eligible addresses of a pool: those whose balances sum above zero. -/
def eligibleCount (holders : List (Address × Balances)) : Nat :=
  (holders.filter (fun e => decide (0 < weightOf e.2))).length

/-- Three distinct contract addresses. -/
def demoContracts : Contracts := ⟨100, 101, 102⟩

/-- A ledger view in which every holder owns `holder % 3` tokens on each ledger, except
that the query of holder `9` on the second ledger fails. -/
def demoClient : Client := fun contractAddress holderAddress _ =>
  if holderAddress = 9 ∧ contractAddress = 101 then .error "timeout"
  else .ok [Fin.ofNat (holderAddress % 3)]

/-- The non-negative integer whose big-endian base-256 representation is `buf`: each byte
times the power of 256 given by the number of bytes after it. -/
def bigEndianValue : List Byte → Nat
  | [] => 0
  | b :: rest => b.val * 256 ^ rest.length + bigEndianValue rest

/-- A ledger view that agrees with `demoClient` at block `12345678` and has no state at
any other height. -/
def demoClientPruned : Client := fun contractAddress holderAddress blockNumber =>
  if blockNumber = 12345678 then demoClient contractAddress holderAddress blockNumber
  else .error "missing trie node"

/-! ### The sampler at the level of pointers

`weightedRandomSelection` once more, with every `*big.Int` a location of a heap, to follow
which `big.Int` values the function overwrites. The map `holders` is only ranged over and
indexed, never assigned to, so it stays a value; what a callee can change of it are the
`big.Int` values its entries point to. -/

/-- The `big.Int` values in memory. A location is a natural number: `val` is the value at
each location, and the locations below `next` are the allocated ones. -/
structure Heap where
  val : Nat → Int
  next : Nat

/-- `new(big.Int)` (with `v = 0`), `big.NewInt(v)`: a fresh location holding `v`. -/
def Heap.alloc (h : Heap) (v : Int) : Nat × Heap :=
  (h.next, ⟨Function.update h.val h.next v, h.next + 1⟩)

/-- `z.Add(x, y)`: the location `z` receives the sum of the values at `x` and `y`. -/
def Heap.add (h : Heap) (z x y : Nat) : Heap :=
  ⟨Function.update h.val z (h.val x + h.val y), h.next⟩

/-- The inner map of one holder: its three `*big.Int`. -/
structure BalanceRefs where
  AR : Nat
  AISTR : Nat
  ALCH : Nat
deriving DecidableEq, Repr

/-- The pool as the caller holds it: per address, the three pointers. -/
abbrev RefPool := GoMap Address BalanceRefs

/-- The balances an entry points to. -/
def Heap.balances (h : Heap) (b : BalanceRefs) : Balances :=
  ⟨h.val b.AR, h.val b.AISTR, h.val b.ALCH⟩

/-- The pool read through the heap: same keys, each with the balances pointed to. -/
def Heap.pool (h : Heap) (holders : RefPool) : Pool :=
  holders.map (fun e => (e.1, h.balances e.2))

/-- The map `weights` read through the heap. -/
def Heap.weights (h : Heap) (weights : GoMap Address Nat) : GoMap Address Int :=
  weights.map (fun e => (e.1, h.val e.2))

/-- Lines 85-90 with pointers: `weight` is a fresh `big.Int` that receives `AR + AISTR` and
then `+ ALCH`, is stored in `weights`, and is added into `totalWeight` in place. -/
def buildWeightsMem : List (Address × BalanceRefs) → GoMap Address Nat → Nat → Heap →
    GoMap Address Nat × Heap
  | [], weights, _, h => (weights, h)
  | (address, balances) :: rest, weights, totalWeight, h =>
    let weight := (h.alloc 0).1
    let h₁ := (h.alloc 0).2.add weight balances.AR balances.AISTR
    let h₂ := h₁.add weight weight balances.ALCH
    let h₃ := h₂.add totalWeight totalWeight weight
    buildWeightsMem rest (GoMap.set weights address weight) totalWeight h₃

/-- Lines 97-103 with pointers: `cumulativeWeight` is updated in place and compared with
the value at `r`. -/
def scanMem (r : Nat) : List (Address × Nat) → Nat → Heap → Option Address × Heap
  | [], _, h => (none, h)
  | (address, weight) :: rest, cumulativeWeight, h =>
    let h₁ := h.add cumulativeWeight cumulativeWeight weight
    if h₁.val r < h₁.val cumulativeWeight then (some address, h₁)
    else scanMem r rest cumulativeWeight h₁

/-- The variables of a run of the sampler and the heap they point into. -/
structure Sampler where
  heap : Heap
  weights : GoMap Address Nat
  totalWeight : Nat
  winners : List Address

/-- One iteration of the outer loop (lines 94-103): `r` and `cumulativeWeight` are fresh,
the scan runs over `weights` in the order `order t` gives. -/
def drawStep (rt : Runtime) (order : Nat → GoMap Address Nat → List (Address × Nat))
    (t : Nat) (s : Sampler) : Sampler :=
  let r := (s.heap.alloc (bigRand (rt.source (rt.now t)) (s.heap.val s.totalWeight))).1
  let h₁ := (s.heap.alloc (bigRand (rt.source (rt.now t)) (s.heap.val s.totalWeight))).2
  let cumulativeWeight := (h₁.alloc 0).1
  let h₂ := (h₁.alloc 0).2
  match scanMem r (order t s.weights) cumulativeWeight h₂ with
  | (some address, h₃) => ⟨h₃, s.weights, s.totalWeight, s.winners ++ [address]⟩
  | (none, h₃) => ⟨h₃, s.weights, s.totalWeight, s.winners⟩

/-- The state after at most `n` further iterations of the outer loop, the next one being
iteration `t`: the loop stops as soon as `len(winners) < numWinners` fails. -/
def drawsMem (rt : Runtime) (order : Nat → GoMap Address Nat → List (Address × Nat))
    (numWinners : Int) : Nat → Nat → Sampler → Sampler
  | 0, _, s => s
  | n + 1, t, s =>
    if (s.winners.length : Int) < numWinners then
      drawsMem rt order numWinners n (t + 1) (drawStep rt order t s)
    else s

/-- The state when the outer loop is reached (lines 81-90): `totalWeight` is a fresh
`big.NewInt(0)`, then the first loop runs over the entries of `holders`. -/
def samplerInit (holdersOrder : List (Address × BalanceRefs)) (h : Heap) : Sampler :=
  let totalWeight := (h.alloc 0).1
  let built := buildWeightsMem holdersOrder [] totalWeight (h.alloc 0).2
  ⟨built.2, built.1, totalWeight, []⟩

/-- `weightedRandomSelection` with pointers: the winners and the heap left behind, or
`none` when the loop has not ended within `fuel` iterations. -/
def weightedRandomSelectionMem (rt : Runtime)
    (order : Nat → GoMap Address Nat → List (Address × Nat))
    (holdersOrder : List (Address × BalanceRefs)) (numWinners : Int) (fuel : Nat)
    (h : Heap) : Option (List Address × Heap) :=
  let s := drawsMem rt order numWinners fuel 0 (samplerInit holdersOrder h)
  if (s.winners.length : Int) < numWinners then none else some (s.winners, s.heap)

/-- Two holders with one token each, as pointers into `heapTwo`. -/
def refPoolTwo : RefPool := [(1, ⟨0, 1, 2⟩), (2, ⟨3, 4, 5⟩)]

/-- A heap of six allocated values: the balances of `refPoolTwo`. -/
def heapTwo : Heap := ⟨fun l => if l = 0 ∨ l = 4 then 1 else 0, 6⟩

/-- The heap left by three draws on `refPoolTwo` in `heapTwo`, the generator giving `t` at
draw `t` and the maps enumerated in stored order. -/
def heapTwoAfter : Heap :=
  (drawsMem (Runtime.ofDraws (fun t => t)) (fun _ m => m) 3 3 0
    (samplerInit refPoolTwo heapTwo)).heap

/-! ## Maps -/

theorem GoMap.set_of_not_mem {κ ν : Type} [DecidableEq κ] (m : GoMap κ ν) (k : κ) (v : ν)
    (h : k ∉ GoMap.keys m) : GoMap.set m k v = m ++ [(k, v)] := by
  induction m with
  | nil => rfl
  | cons e rest ih =>
    obtain ⟨k', v'⟩ := e
    have hk : ¬ k' = k := fun he => h (by simp [GoMap.keys, he])
    have hr : k ∉ GoMap.keys rest := fun hm => h (by
      simp only [GoMap.keys, List.map_cons, List.mem_cons] at hm ⊢
      exact Or.inr hm)
    simp [GoMap.set, hk, ih hr]

theorem GoMap.mem_set {κ ν : Type} [DecidableEq κ] (m : GoMap κ ν) (k : κ) (v : ν)
    (e : κ × ν) (h : e ∈ GoMap.set m k v) : e ∈ m ∨ e = (k, v) := by
  induction m with
  | nil => simpa [GoMap.set] using h
  | cons e' rest ih =>
    obtain ⟨k', v'⟩ := e'
    by_cases hk : k' = k
    · simp only [GoMap.set, hk, if_true, List.mem_cons] at h
      rcases h with h | h
      · exact Or.inr h
      · exact Or.inl (List.mem_cons_of_mem _ h)
    · simp only [GoMap.set, hk, if_false, List.mem_cons] at h
      rcases h with h | h
      · exact Or.inl (h ▸ List.mem_cons_self _ _)
      · rcases ih h with h' | h'
        · exact Or.inl (List.mem_cons_of_mem _ h')
        · exact Or.inr h'

/-! ## The first loop -/

theorem buildWeights_total (l : List (Address × Balances)) (ws : GoMap Address Int) (t : Int) :
    (buildWeights l ws t).2 = t + sumWeights (weightsOf l) := by
  induction l generalizing ws t with
  | nil => simp [buildWeights, sumWeights, weightsOf]
  | cons e rest ih =>
    obtain ⟨a, b⟩ := e
    simp only [buildWeights, ih, sumWeights, weightsOf, List.map_cons, List.sum_cons]
    omega

theorem buildWeights_mem (l : List (Address × Balances)) (ws : GoMap Address Int) (t : Int)
    (e : Address × Int) (h : e ∈ (buildWeights l ws t).1) :
    e ∈ ws ∨ ∃ b, (e.1, b) ∈ l ∧ e.2 = weightOf b := by
  induction l generalizing ws t with
  | nil => exact Or.inl (by simpa [buildWeights] using h)
  | cons x rest ih =>
    obtain ⟨a, b⟩ := x
    simp only [buildWeights] at h
    rcases ih _ _ h with h' | ⟨b', hb', hw⟩
    · rcases GoMap.mem_set _ _ _ _ h' with h'' | h''
      · exact Or.inl h''
      · exact Or.inr ⟨b, by simp [h''], by simp [h'']⟩
    · exact Or.inr ⟨b', List.mem_cons_of_mem _ hb', hw⟩

theorem buildWeights_weights (l : List (Address × Balances)) (ws : GoMap Address Int) (t : Int)
    (h : (GoMap.keys ws ++ GoMap.keys l).Nodup) :
    (buildWeights l ws t).1 = ws ++ weightsOf l := by
  induction l generalizing ws t with
  | nil => simp [buildWeights, weightsOf]
  | cons x rest ih =>
    obtain ⟨a, b⟩ := x
    have ha : a ∉ GoMap.keys ws := by
      intro hm
      have := List.nodup_append.1 h
      exact List.disjoint_left.1 this.2.2 hm (by simp [GoMap.keys])
    have hn : (GoMap.keys (ws ++ [(a, weightOf b)]) ++ GoMap.keys rest).Nodup := by
      simpa [GoMap.keys] using h
    simp only [buildWeights, GoMap.set_of_not_mem ws a _ ha, ih _ _ hn, weightsOf,
      List.map_cons, List.append_assoc, List.singleton_append]

theorem buildWeights_nodup (holders : List (Address × Balances))
    (h : (GoMap.keys holders).Nodup) :
    buildWeights holders [] 0 = (weightsOf holders, sumWeights (weightsOf holders)) := by
  have h1 := buildWeights_weights holders [] 0 (by simpa [GoMap.keys] using h)
  have h2 := buildWeights_total holders [] 0
  ext1
  · simpa using h1
  · simpa using h2

/-! ## The random value -/

theorem bigRand_nonneg (raw : Nat) (n : Int) : 0 ≤ bigRand raw n := by
  unfold bigRand
  split
  · exact le_refl 0
  · exact Int.emod_nonneg _ (by omega)

theorem bigRand_lt (raw : Nat) (n : Int) (h : 0 < n) : bigRand raw n < n := by
  unfold bigRand
  rw [if_neg (by omega)]
  exact Int.emod_lt_of_pos _ h

theorem bigRand_of_lt (raw : Nat) (n : Int) (h : (raw : Int) < n) : bigRand raw n = raw := by
  unfold bigRand
  rw [if_neg (by omega)]
  exact Int.emod_eq_of_lt (by omega) h

/-! ## The inner loop -/

theorem scan_hit (r : Int) (l : List (Address × Int)) (c : Int) (hc : c ≤ r)
    (h : r < c + sumWeights l) : ∃ a, scan r l c = some a := by
  induction l generalizing c with
  | nil => simp [sumWeights] at h; omega
  | cons e rest ih =>
    obtain ⟨a, w⟩ := e
    by_cases hr : r < c + w
    · exact ⟨a, by simp [scan, hr]⟩
    · have hs : r < (c + w) + sumWeights rest := by
        simp only [sumWeights, List.map_cons, List.sum_cons] at h ⊢
        omega
      obtain ⟨a', ha'⟩ := ih (c + w) (by omega) hs
      exact ⟨a', by simp [scan, hr, ha']⟩

theorem scan_sound (r : Int) (l : List (Address × Int)) (c : Int) (hc : c ≤ r)
    (a : Address) (h : scan r l c = some a) : ∃ w, (a, w) ∈ l ∧ 0 < w := by
  induction l generalizing c with
  | nil => simp [scan] at h
  | cons e rest ih =>
    obtain ⟨a', w'⟩ := e
    by_cases hr : r < c + w'
    · simp only [scan, hr, if_true, Option.some.injEq] at h
      exact ⟨w', by simp [h], by omega⟩
    · simp only [scan, hr, if_false] at h
      obtain ⟨w, hw, hpos⟩ := ih (c + w') (by omega) h
      exact ⟨w, List.mem_cons_of_mem _ hw, hpos⟩

theorem scan_miss (r : Int) (l : List (Address × Int)) (c : Int) (hc : c ≤ r)
    (hz : ∀ e ∈ l, e.2 ≤ 0) : scan r l c = none := by
  induction l generalizing c with
  | nil => rfl
  | cons e rest ih =>
    obtain ⟨a, w⟩ := e
    have hw : w ≤ 0 := hz (a, w) (List.mem_cons_self _ _)
    have hr : ¬ r < c + w := by omega
    simp only [scan, hr, if_false]
    exact ih (c + w) (by omega) (fun e he => hz e (List.mem_cons_of_mem _ he))

/-! ## The outer loop -/

theorem filterMap_hits {α β : Type} (f : α → Option β) (l : List α)
    (h : ∀ x ∈ l, ∃ b, f x = some b) : (l.filterMap f).map some = l.map f := by
  induction l with
  | nil => rfl
  | cons x rest ih =>
    obtain ⟨b, hb⟩ := h x (List.mem_cons_self _ _)
    have ih' := ih (fun y hy => h y (List.mem_cons_of_mem _ hy))
    simp [List.filterMap_cons, hb, ih']

theorem drawLoop_hits (rt : Runtime) (weights : GoMap Address Int) (totalWeight : Int)
    (numWinners : Int) (hhit : ∀ t, ∃ a, drawAt rt weights totalWeight t = some a)
    (fuel t : Nat) (winners : List Address) (hf : numWinners.toNat - winners.length ≤ fuel) :
    drawLoop rt weights totalWeight numWinners fuel t winners
      = some (winners ++ (List.range' t (numWinners.toNat - winners.length)).filterMap
          (drawAt rt weights totalWeight)) := by
  induction fuel generalizing t winners with
  | zero =>
    have h0 : numWinners.toNat - winners.length = 0 := by omega
    have hlt : ¬ (winners.length : Int) < numWinners := by omega
    simp [drawLoop, hlt, h0]
  | succ fuel ih =>
    by_cases hlt : (winners.length : Int) < numWinners
    · obtain ⟨a, ha⟩ := hhit t
      have ha' : scan (bigRand (rt.source (rt.now t)) totalWeight) (rt.rangeOrder t weights) 0
          = some a := ha
      have hn : numWinners.toNat - winners.length
          = (numWinners.toNat - (winners ++ [a]).length) + 1 := by
        simp only [List.length_append, List.length_singleton]
        omega
      have hf' : numWinners.toNat - (winners ++ [a]).length ≤ fuel := by omega
      simp only [drawLoop, hlt, if_true, ha']
      rw [ih (t + 1) (winners ++ [a]) hf', hn, List.range'_succ, List.filterMap_cons, ha]
      simp
    · have h0 : numWinners.toNat - winners.length = 0 := by omega
      simp [drawLoop, hlt, h0]

theorem drawLoop_misses (rt : Runtime) (weights : GoMap Address Int) (totalWeight : Int)
    (numWinners : Int) (hpos : 0 < numWinners)
    (hmiss : ∀ t, drawAt rt weights totalWeight t = none) (fuel t : Nat) :
    drawLoop rt weights totalWeight numWinners fuel t [] = none := by
  induction fuel generalizing t with
  | zero => simp [drawLoop, hpos]
  | succ fuel ih =>
    have hm : scan (bigRand (rt.source (rt.now t)) totalWeight) (rt.rangeOrder t weights) 0
        = none := hmiss t
    simp only [drawLoop, List.length_nil, Nat.cast_zero, hpos, if_true, hm]
    exact ih (t + 1)

theorem drawLoop_length (rt : Runtime) (weights : GoMap Address Int) (totalWeight : Int)
    (numWinners : Int) (fuel t : Nat) (winners ws : List Address)
    (h : drawLoop rt weights totalWeight numWinners fuel t winners = some ws)
    (hlen : winners.length ≤ numWinners.toNat) : ws.length = numWinners.toNat := by
  induction fuel generalizing t winners with
  | zero =>
    by_cases hlt : (winners.length : Int) < numWinners
    · simp [drawLoop, hlt] at h
    · simp only [drawLoop, hlt, if_false, Option.some.injEq] at h
      subst h
      omega
  | succ fuel ih =>
    by_cases hlt : (winners.length : Int) < numWinners
    · cases hs : scan (bigRand (rt.source (rt.now t)) totalWeight) (rt.rangeOrder t weights) 0 with
      | none =>
        simp only [drawLoop, hlt, if_true, hs] at h
        exact ih (t + 1) winners h hlen
      | some a =>
        simp only [drawLoop, hlt, if_true, hs] at h
        exact ih (t + 1) (winners ++ [a]) h (by
          simp only [List.length_append, List.length_singleton]
          omega)
    · simp only [drawLoop, hlt, if_false, Option.some.injEq] at h
      subst h
      omega

theorem drawLoop_forall (rt : Runtime) (weights : GoMap Address Int) (totalWeight : Int)
    (numWinners : Int) (P : Address → Prop)
    (hP : ∀ t a, drawAt rt weights totalWeight t = some a → P a)
    (fuel t : Nat) (winners ws : List Address)
    (h : drawLoop rt weights totalWeight numWinners fuel t winners = some ws)
    (hw : ∀ a ∈ winners, P a) : ∀ a ∈ ws, P a := by
  induction fuel generalizing t winners with
  | zero =>
    by_cases hlt : (winners.length : Int) < numWinners
    · simp [drawLoop, hlt] at h
    · simp only [drawLoop, hlt, if_false, Option.some.injEq] at h
      subst h
      exact hw
  | succ fuel ih =>
    by_cases hlt : (winners.length : Int) < numWinners
    · cases hs : scan (bigRand (rt.source (rt.now t)) totalWeight) (rt.rangeOrder t weights) 0 with
      | none =>
        simp only [drawLoop, hlt, if_true, hs] at h
        exact ih (t + 1) winners h hw
      | some a =>
        simp only [drawLoop, hlt, if_true, hs] at h
        refine ih (t + 1) (winners ++ [a]) h ?_
        intro x hx
        rcases List.mem_append.1 hx with hx | hx
        · exact hw x hx
        · have hxa : x = a := by simpa using hx
          exact hxa ▸ hP t a hs
    · simp only [drawLoop, hlt, if_false, Option.some.injEq] at h
      subst h
      exact hw

theorem drawLoop_congr (rt₁ rt₂ : Runtime) (w₁ w₂ : GoMap Address Int) (totalWeight : Int)
    (numWinners : Int) (hd : ∀ t, drawAt rt₁ w₁ totalWeight t = drawAt rt₂ w₂ totalWeight t)
    (fuel t : Nat) (winners : List Address) :
    drawLoop rt₁ w₁ totalWeight numWinners fuel t winners
      = drawLoop rt₂ w₂ totalWeight numWinners fuel t winners := by
  induction fuel generalizing t winners with
  | zero => simp [drawLoop]
  | succ fuel ih =>
    have hd' : scan (bigRand (rt₁.source (rt₁.now t)) totalWeight) (rt₁.rangeOrder t w₁) 0
        = scan (bigRand (rt₂.source (rt₂.now t)) totalWeight) (rt₂.rangeOrder t w₂) 0 := hd t
    by_cases hlt : (winners.length : Int) < numWinners
    · simp only [drawLoop, hlt, if_true, hd']
      cases scan (bigRand (rt₂.source (rt₂.now t)) totalWeight) (rt₂.rangeOrder t w₂) 0 with
      | none => exact ih (t + 1) winners
      | some a => exact ih (t + 1) (winners ++ [a])
    · simp [drawLoop, hlt]

/-- Whatever an iteration selects is a key of the pool whose stored balances have a
positive sum. -/
theorem drawAt_sound (rt : Runtime) (holders : List (Address × Balances))
    (hfair : rt.Fair) (t : Nat) (a : Address)
    (h : drawAt rt (buildWeights holders [] 0).1 (buildWeights holders [] 0).2 t = some a) :
    ∃ b, (a, b) ∈ holders ∧ 0 < weightOf b := by
  obtain ⟨w, hw, hpos⟩ := scan_sound _ _ 0 (bigRand_nonneg _ _) a h
  have hmem : (a, w) ∈ (buildWeights holders [] 0).1 := (hfair t _).subset hw
  rcases buildWeights_mem holders [] 0 (a, w) hmem with hnil | ⟨b, hb, hwb⟩
  · simp at hnil
  · exact ⟨b, hb, by simpa [← hwb] using hpos⟩

theorem keys_unique (holders : List (Address × Balances)) (hkeys : (GoMap.keys holders).Nodup)
    (a : Address) (b b' : Balances) (hb : (a, b) ∈ holders) (hb' : (a, b') ∈ holders) :
    b = b' := by
  induction holders with
  | nil => simp at hb
  | cons e rest ih =>
    simp only [GoMap.keys, List.map_cons, List.nodup_cons, List.mem_map, not_exists,
      not_and] at hkeys
    rcases List.mem_cons.1 hb with h1 | h1 <;> rcases List.mem_cons.1 hb' with h2 | h2
    · have := h1.trans h2.symm
      simpa using this
    · exact absurd (by rw [← h1]) (hkeys.1 (a, b') h2)
    · exact absurd (by rw [← h2]) (hkeys.1 (a, b) h1)
    · exact ih hkeys.2 h1 h2

/-- With distinct keys and a positive total, every iteration of the outer loop selects. -/
theorem drawAt_hit (rt : Runtime) (holders : List (Address × Balances))
    (hfair : rt.Fair) (hkeys : (GoMap.keys holders).Nodup)
    (hT : 0 < (buildWeights holders [] 0).2) (t : Nat) :
    ∃ a, drawAt rt (buildWeights holders [] 0).1 (buildWeights holders [] 0).2 t = some a := by
  rw [buildWeights_nodup holders hkeys] at hT ⊢
  simp only at hT ⊢
  apply scan_hit _ _ _ (bigRand_nonneg _ _)
  have hsum : sumWeights (rt.rangeOrder t (weightsOf holders)) = sumWeights (weightsOf holders) :=
    ((hfair t (weightsOf holders)).map Prod.snd).sum_eq
  rw [hsum, zero_add]
  exact bigRand_lt _ _ hT

/-- The run under the hypotheses of `drawAt_hit`: the winners are the addresses
selected by the first `numWinners` iterations, in order. -/
theorem selection_eq (rt : Runtime) (holders : List (Address × Balances))
    (numWinners : Int) (fuel : Nat)
    (hfair : rt.Fair) (hkeys : (GoMap.keys holders).Nodup)
    (hT : 0 < (buildWeights holders [] 0).2) (hf : numWinners.toNat ≤ fuel) :
    weightedRandomSelection rt holders numWinners fuel
      = some ((List.range' 0 numWinners.toNat).filterMap
          (drawAt rt (buildWeights holders [] 0).1 (buildWeights holders [] 0).2)) := by
  have h := drawLoop_hits rt (buildWeights holders [] 0).1 (buildWeights holders [] 0).2
    numWinners (drawAt_hit rt holders hfair hkeys hT) fuel 0 [] (by simpa using hf)
  simpa [weightedRandomSelection] using h

theorem Runtime.ofDraws_fair (raw : Nat → Nat) : (Runtime.ofDraws raw).Fair :=
  fun _ _ => List.Perm.refl _

theorem Runtime.reversed_fair (raw : Nat → Nat) : (Runtime.reversed raw).Fair :=
  fun _ m => List.reverse_perm m

/-! ## Sampling with replacement -/

/-- C1, as stated, fails: with two holders of one token each, `K = 2` and both random
values `0`, the run returns the first holder twice. -/
theorem selection_repeats_address :
    (Runtime.ofDraws (fun _ => 0)).Fair ∧ (GoMap.keys poolTwo).Nodup
      ∧ (0 : Int) < 2 ∧ (2 : Int) ≤ poolTwo.length
      ∧ weightedRandomSelection (Runtime.ofDraws (fun _ => 0)) poolTwo 2 2 = some [1, 1]
      ∧ ¬ ([1, 1] : List Address).Nodup :=
  ⟨Runtime.ofDraws_fair _, by decide, by decide, by decide, by decide, by decide⟩

/-- C1, amended: for a pool with distinct keys and positive total weight, every `K`, clock,
generator and fair enumeration order, the run returns `K` addresses and the `i`-th one is
the address the cumulative scan selects for the `i`-th random value over the whole weights
map against the whole total weight: nothing is removed after a selection, so an address
already selected may be selected again. -/
theorem selection_with_replacement (rt : Runtime) (holders : List (Address × Balances))
    (numWinners : Int) (fuel : Nat)
    (hfair : rt.Fair) (hkeys : (GoMap.keys holders).Nodup)
    (hT : 0 < (buildWeights holders [] 0).2) (hf : numWinners.toNat ≤ fuel) :
    ∃ winners, weightedRandomSelection rt holders numWinners fuel = some winners
      ∧ winners.length = numWinners.toNat
      ∧ ∀ i, i < numWinners.toNat →
          winners[i]? = scan (bigRand (rt.source (rt.now i)) (buildWeights holders [] 0).2)
            (rt.rangeOrder i (buildWeights holders [] 0).1) 0 := by
  have hmap := filterMap_hits (drawAt rt (buildWeights holders [] 0).1 (buildWeights holders [] 0).2)
    (List.range' 0 numWinners.toNat) (fun t _ => drawAt_hit rt holders hfair hkeys hT t)
  refine ⟨_, selection_eq rt holders numWinners fuel hfair hkeys hT hf, ?_, ?_⟩
  · have := congrArg List.length hmap
    simpa using this
  · intro i hi
    have := congrArg (fun l => l[i]?) hmap
    simp only [List.getElem?_map, List.getElem?_range' 0 1 hi, Option.map_some'] at this
    have hlen : i < ((List.range' 0 numWinners.toNat).filterMap
        (drawAt rt (buildWeights holders [] 0).1 (buildWeights holders [] 0).2)).length := by
      have := congrArg List.length hmap
      simp only [List.length_map, List.length_range'] at this
      omega
    rw [List.getElem?_eq_getElem hlen] at this ⊢
    simp only [Option.map_some', Option.some.injEq, zero_add, one_mul] at this
    rw [this]
    rfl

/-- A run of `selection_with_replacement`: two holders, three draws. -/
theorem selection_with_replacement_witness :
    ∃ winners, weightedRandomSelection (Runtime.ofDraws (fun t => t)) poolTwo 3 3 = some winners
      ∧ winners.length = (3 : Int).toNat
      ∧ ∀ i, i < (3 : Int).toNat →
          winners[i]? = scan (bigRand ((Runtime.ofDraws (fun t => t)).source
              ((Runtime.ofDraws (fun t => t)).now i)) (buildWeights poolTwo [] 0).2)
            ((Runtime.ofDraws (fun t => t)).rangeOrder i (buildWeights poolTwo [] 0).1) 0 :=
  selection_with_replacement (Runtime.ofDraws (fun t => t)) poolTwo 3 3
    (Runtime.ofDraws_fair _) (by decide) (by decide) (by decide)

/-! ## The number of winners -/

/-- C3: for a pool with distinct keys and positive total weight (non-negative weights are
not needed), every `K ≥ 0`, every random values and every fair enumeration order, the run
returns after `K` iterations, and every list it returns has exactly `K` addresses. -/
theorem selection_length (rt : Runtime) (holders : List (Address × Balances))
    (numWinners : Int) (hfair : rt.Fair) (hkeys : (GoMap.keys holders).Nodup)
    (hT : 0 < (buildWeights holders [] 0).2) (hK : 0 ≤ numWinners) :
    (∃ winners, weightedRandomSelection rt holders numWinners numWinners.toNat = some winners)
      ∧ ∀ fuel winners, weightedRandomSelection rt holders numWinners fuel = some winners →
          (winners.length : Int) = numWinners := by
  refine ⟨⟨_, selection_eq rt holders numWinners _ hfair hkeys hT (le_refl _)⟩, ?_⟩
  intro fuel winners h
  have := drawLoop_length rt _ _ numWinners fuel 0 [] winners h (by simp)
  omega

/-- A run of `selection_length`: two holders, five winners asked for. -/
theorem selection_length_witness :
    (∃ winners, weightedRandomSelection (Runtime.reversed (fun t => 7 * t)) poolTwo 5
        (5 : Int).toNat = some winners)
      ∧ ∀ fuel winners,
          weightedRandomSelection (Runtime.reversed (fun t => 7 * t)) poolTwo 5 fuel
            = some winners → (winners.length : Int) = 5 :=
  selection_length (Runtime.reversed (fun t => 7 * t)) poolTwo 5
    (Runtime.reversed_fair _) (by decide) (by decide) (by decide)

/-! ## Winners are holders of positive weight -/

/-- C4: for every pool (entries of weight zero or below included), every `K`, every random
values and every fair enumeration order, each address of a returned list is a key of the
pool and the balances stored for it sum to a strictly positive weight. -/
theorem selection_sound (rt : Runtime) (holders : List (Address × Balances))
    (numWinners : Int) (fuel : Nat) (winners : List Address)
    (hfair : rt.Fair) (hkeys : (GoMap.keys holders).Nodup)
    (h : weightedRandomSelection rt holders numWinners fuel = some winners) :
    ∀ a ∈ winners, a ∈ GoMap.keys holders
      ∧ ∀ b, (a, b) ∈ holders → 0 < b.AR + b.AISTR + b.ALCH := by
  have hall := drawLoop_forall rt _ _ numWinners
    (fun a => ∃ b, (a, b) ∈ holders ∧ 0 < weightOf b)
    (fun t a ha => drawAt_sound rt holders hfair t a ha) fuel 0 [] winners h (by simp)
  intro a ha
  obtain ⟨b, hb, hpos⟩ := hall a ha
  refine ⟨List.mem_map.2 ⟨(a, b), hb, rfl⟩, ?_⟩
  intro b' hb'
  have := keys_unique holders hkeys a b b' hb hb'
  subst this
  exact hpos

/-- A run of `selection_sound` on a pool with an entry of weight zero. -/
theorem selection_sound_witness :
    weightedRandomSelection (Runtime.ofDraws (fun t => t)) poolWithZero 3 3 = some [2, 2, 2]
      ∧ ∀ a ∈ [2, 2, 2], a ∈ GoMap.keys poolWithZero
        ∧ ∀ b, (a, b) ∈ poolWithZero → 0 < b.AR + b.AISTR + b.ALCH :=
  ⟨by decide, selection_sound (Runtime.ofDraws (fun t => t)) poolWithZero 3 3 [2, 2, 2]
    (Runtime.ofDraws_fair _) (by decide) (by decide)⟩

/-! ## Dependence on the enumeration order -/

/-- C5, as stated, fails: the same pool, `K = 1` and the same random value `0` give
different winners under two enumeration orders of the weights map. -/
theorem selection_depends_on_order :
    (Runtime.ofDraws (fun _ => 0)).Fair ∧ (Runtime.reversed (fun _ => 0)).Fair
      ∧ (∀ t, (Runtime.ofDraws (fun _ => 0)).source ((Runtime.ofDraws (fun _ => 0)).now t)
          = (Runtime.reversed (fun _ => 0)).source ((Runtime.reversed (fun _ => 0)).now t))
      ∧ weightedRandomSelection (Runtime.ofDraws (fun _ => 0)) poolTwo 1 1 = some [1]
      ∧ weightedRandomSelection (Runtime.reversed (fun _ => 0)) poolTwo 1 1 = some [2] :=
  ⟨Runtime.ofDraws_fair _, Runtime.reversed_fair _, fun _ => rfl, by decide, by decide⟩

/-- C5, amended: two runs on the same pool (its entries enumerated in any two orders by the
first loop), with the same `K`, the same random values and the same enumeration of the
weights map at every draw, return the same list in the same order, or both do not return
within the same number of iterations. -/
theorem selection_deterministic (rt₁ rt₂ : Runtime) (holders₁ holders₂ : List (Address × Balances))
    (numWinners : Int) (fuel : Nat) (hperm : holders₁.Perm holders₂)
    (hraw : ∀ t, rt₁.source (rt₁.now t) = rt₂.source (rt₂.now t))
    (horder : ∀ t, rt₁.rangeOrder t (buildWeights holders₁ [] 0).1
      = rt₂.rangeOrder t (buildWeights holders₂ [] 0).1) :
    weightedRandomSelection rt₁ holders₁ numWinners fuel
      = weightedRandomSelection rt₂ holders₂ numWinners fuel := by
  have htot : (buildWeights holders₁ [] 0).2 = (buildWeights holders₂ [] 0).2 := by
    rw [buildWeights_total, buildWeights_total]
    have : (weightsOf holders₁).Perm (weightsOf holders₂) := hperm.map _
    exact congrArg _ ((this.map Prod.snd).sum_eq)
  unfold weightedRandomSelection
  simp only [htot]
  apply drawLoop_congr
  intro t
  simp only [drawAt, hraw t, horder t]

/-- Two runs of `selection_deterministic` whose first loops enumerate the pool in
opposite orders. -/
theorem selection_deterministic_witness :
    weightedRandomSelection (Runtime.ofDraws (fun t => t)) poolTwo 4 4
      = weightedRandomSelection ⟨fun _ _ => poolTwo.map (fun e => (e.1, weightOf e.2)),
          fun t => (t : Int) + 1, fun s => (s - 1).toNat⟩ poolTwo.reverse 4 4 :=
  selection_deterministic (Runtime.ofDraws (fun t => t))
    ⟨fun _ _ => poolTwo.map (fun e => (e.1, weightOf e.2)),
      fun t => (t : Int) + 1, fun s => (s - 1).toNat⟩
    poolTwo poolTwo.reverse 4 4 (List.reverse_perm _).symm
    (fun t => by simp [Runtime.ofDraws]) (fun _ => rfl)

/-! ## More winners asked for than eligible addresses -/

/-- C6, as stated, fails: with a single eligible holder and `K = 2` the run reports no
error and returns a list of two entries. -/
theorem selection_no_exhaustion_error :
    (Runtime.ofDraws (fun _ => 0)).Fair ∧ (GoMap.keys poolOne).Nodup
      ∧ (eligibleCount poolOne : Int) < 2
      ∧ weightedRandomSelection (Runtime.ofDraws (fun _ => 0)) poolOne 2 2 = some [1, 1] :=
  ⟨Runtime.ofDraws_fair _, by decide, by decide, by decide⟩

/-- C6, amended: for a pool with distinct keys and positive total weight and every `K`
greater than the number of eligible addresses, the run reports no error: it returns a list
of exactly `K` addresses, in which some address occurs more than once. -/
theorem selection_beyond_eligible (rt : Runtime) (holders : List (Address × Balances))
    (numWinners : Int) (fuel : Nat)
    (hfair : rt.Fair) (hkeys : (GoMap.keys holders).Nodup)
    (hT : 0 < (buildWeights holders [] 0).2)
    (hK : eligibleCount holders < numWinners.toNat) (hf : numWinners.toNat ≤ fuel) :
    ∃ winners, weightedRandomSelection rt holders numWinners fuel = some winners
      ∧ winners.length = numWinners.toNat ∧ ¬ winners.Nodup := by
  have hrun := selection_eq rt holders numWinners fuel hfair hkeys hT hf
  refine ⟨_, hrun, drawLoop_length rt _ _ numWinners fuel 0 [] _ hrun (by simp), ?_⟩
  intro hnodup
  have hall := drawLoop_forall rt _ _ numWinners
    (fun a => ∃ b, (a, b) ∈ holders ∧ 0 < weightOf b)
    (fun t a ha => drawAt_sound rt holders hfair t a ha) fuel 0 [] _ hrun (by simp)
  have hsub : (List.range' 0 numWinners.toNat).filterMap
      (drawAt rt (buildWeights holders [] 0).1 (buildWeights holders [] 0).2)
      ⊆ (holders.filter (fun e => decide (0 < weightOf e.2))).map Prod.fst := by
    intro a ha
    obtain ⟨b, hb, hpos⟩ := hall a ha
    exact List.mem_map.2 ⟨(a, b), List.mem_filter.2 ⟨hb, by simpa using hpos⟩, rfl⟩
  have hle := (hnodup.subperm hsub).length_le
  have hlen := drawLoop_length rt _ _ numWinners fuel 0 [] _ hrun (by simp)
  rw [hlen, List.length_map] at hle
  unfold eligibleCount at hK
  omega

/-- A run of `selection_beyond_eligible`: one eligible holder out of two, three winners. -/
theorem selection_beyond_eligible_witness :
    ∃ winners, weightedRandomSelection (Runtime.reversed (fun t => t)) poolWithZero 3 3
        = some winners
      ∧ winners.length = (3 : Int).toNat ∧ ¬ winners.Nodup :=
  selection_beyond_eligible (Runtime.reversed (fun t => t)) poolWithZero 3 3
    (Runtime.reversed_fair _) (by decide) (by decide) (by decide) (by decide)

/-! ## A pool without weight -/

theorem sumWeights_zero (holders : List (Address × Balances))
    (hzero : ∀ e ∈ holders, weightOf e.2 = 0) : sumWeights (weightsOf holders) = 0 := by
  induction holders with
  | nil => rfl
  | cons e rest ih =>
    have h1 := hzero e (List.mem_cons_self _ _)
    have h2 := ih (fun x hx => hzero x (List.mem_cons_of_mem _ hx))
    simp only [sumWeights, weightsOf, List.map_cons, List.sum_cons] at h2 ⊢
    omega

/-- C7 is violated by the code: when every entry of the pool has weight zero (the empty
pool of `main` included) and `K > 0`, no check precedes the loop; every iteration draws
`r = 0`, its scan selects nothing, and the run does not return whatever the number of
iterations allowed. -/
theorem selection_zero_weight_diverges (rt : Runtime) (holders : List (Address × Balances))
    (numWinners : Int) (hfair : rt.Fair) (hzero : ∀ e ∈ holders, weightOf e.2 = 0)
    (hK : 0 < numWinners) (fuel : Nat) :
    weightedRandomSelection rt holders numWinners fuel = none := by
  unfold weightedRandomSelection
  apply drawLoop_misses rt _ _ numWinners hK
  intro t
  have htot : (buildWeights holders [] 0).2 = 0 := by
    rw [buildWeights_total, sumWeights_zero holders hzero]
    rfl
  unfold drawAt
  apply scan_miss _ _ 0 (bigRand_nonneg _ _)
  intro e he
  have hmem : e ∈ (buildWeights holders [] 0).1 := (hfair t _).subset he
  rcases buildWeights_mem holders [] 0 e hmem with hnil | ⟨b, hb, hwb⟩
  · simp at hnil
  · rw [hwb, hzero (e.1, b) hb]

/-- The calls made by `main`: the empty candidate list gives the empty pool, on which
`weightedRandomSelection(holders, 100)` does not return within a million iterations. -/
theorem selection_zero_weight_diverges_witness :
    getHoldersBalances demoContracts demoClient 12345678 [] = .ok []
      ∧ weightedRandomSelection (Runtime.ofDraws (fun t => t)) [] 100 1000000 = none :=
  ⟨rfl, selection_zero_weight_diverges (Runtime.ofDraws (fun t => t)) [] 100
    (Runtime.ofDraws_fair _) (by simp) (by decide) 1000000⟩

/-! ## Proportionality of a single draw -/

theorem sumWeights_nonneg (l : List (Address × Int)) (h : ∀ e ∈ l, 0 ≤ e.2) :
    0 ≤ sumWeights l := by
  induction l with
  | nil => simp [sumWeights]
  | cons e rest ih =>
    have h1 := h e (List.mem_cons_self _ _)
    have h2 := ih (fun x hx => h x (List.mem_cons_of_mem _ hx))
    simp only [sumWeights, List.map_cons, List.sum_cons] at h2 ⊢
    omega

/-- In an enumeration with distinct keys and non-negative weights, the random values that
select a given entry form an interval as long as the entry's weight. -/
theorem scan_interval (l : List (Address × Int)) (hkeys : (GoMap.keys l).Nodup)
    (hnn : ∀ e ∈ l, 0 ≤ e.2) (A : Address) (wA : Int) (hA : (A, wA) ∈ l) (c : Int) :
    ∃ lo, c ≤ lo ∧ lo + wA ≤ c + sumWeights l
      ∧ ∀ r, c ≤ r → (scan r l c = some A ↔ lo ≤ r ∧ r < lo + wA) := by
  induction l generalizing c with
  | nil => simp at hA
  | cons e rest ih =>
    obtain ⟨a, w⟩ := e
    simp only [GoMap.keys, List.map_cons, List.nodup_cons] at hkeys
    have hw : 0 ≤ w := hnn (a, w) (List.mem_cons_self _ _)
    have hrest : ∀ e ∈ rest, 0 ≤ e.2 := fun x hx => hnn x (List.mem_cons_of_mem _ hx)
    have hsum := sumWeights_nonneg rest hrest
    have hcons : sumWeights ((a, w) :: rest) = w + sumWeights rest := by
      simp [sumWeights]
    rcases List.mem_cons.1 hA with heq | hin
    · have haA : A = a := congrArg Prod.fst heq
      have hwA : wA = w := congrArg Prod.snd heq
      subst haA hwA
      refine ⟨c, le_refl c, by rw [hcons]; omega, ?_⟩
      intro r hr
      by_cases hlt : r < c + wA
      · have hs : scan r ((A, wA) :: rest) c = some A := by simp [scan, hlt]
        exact ⟨fun _ => ⟨hr, hlt⟩, fun _ => hs⟩
      · simp only [scan, hlt, if_false]
        constructor
        · intro hs
          obtain ⟨w', hw', _⟩ := scan_sound r rest (c + wA) (by omega) A hs
          exact absurd (List.mem_map.2 ⟨(A, w'), hw', rfl⟩) hkeys.1
        · intro hb
          exact hb.2.elim
    · have hne : ¬ a = A := by
        intro h
        exact hkeys.1 (List.mem_map.2 ⟨(A, wA), hin, h.symm⟩)
      obtain ⟨lo, hlo, hhi, hiff⟩ := ih hkeys.2 hrest hin (c + w)
      refine ⟨lo, by omega, by rw [hcons]; omega, ?_⟩
      intro r hr
      by_cases hlt : r < c + w
      · simp only [scan, hlt, if_true, Option.some.injEq, hne, false_iff]
        omega
      · simp only [scan, hlt, if_false]
        exact hiff r (by omega)

theorem scan_count (l : List (Address × Int)) (hkeys : (GoMap.keys l).Nodup)
    (hnn : ∀ e ∈ l, 0 ≤ e.2) (A : Address) (wA : Int) (hA : (A, wA) ∈ l) :
    ((Finset.range (sumWeights l).toNat).filter
      (fun (raw : Nat) => scan (raw : Int) l 0 = some A)).card = wA.toNat := by
  obtain ⟨lo, hlo, hhi, hiff⟩ := scan_interval l hkeys hnn A wA hA 0
  have hwA : 0 ≤ wA := hnn (A, wA) hA
  have hset : (Finset.range (sumWeights l).toNat).filter
      (fun (raw : Nat) => scan (raw : Int) l 0 = some A) = Finset.Ico lo.toNat (lo + wA).toNat := by
    ext raw
    simp only [Finset.mem_filter, Finset.mem_range, Finset.mem_Ico]
    rw [hiff (raw : Int) (by omega)]
    omega
  rw [hset, Nat.card_Ico]
  omega

theorem selection_one (rt : Runtime) (holders : List (Address × Balances)) :
    weightedRandomSelection rt holders 1 1
      = (drawAt rt (buildWeights holders [] 0).1 (buildWeights holders [] 0).2 0).map
          (fun a => [a]) := by
  unfold weightedRandomSelection drawAt
  cases hs : scan (bigRand (rt.source (rt.now 0)) (buildWeights holders [] 0).2)
      (rt.rangeOrder 0 (buildWeights holders [] 0).1) 0 with
  | none => simp [drawLoop, hs]
  | some a => simp [drawLoop, hs]

/-- C2: for a pool with distinct keys, non-negative weights and positive total `T`, every
fair enumeration order and every address `A` of the pool, the number of `r` in `[0, T)` for
which the cumulative scan of any draw selects `A` equals the weight of `A`; the same count
holds for the values of the generator for which a run with `K = 1` returns `[A]`. -/
theorem draw_proportional (rt : Runtime) (holders : List (Address × Balances))
    (A : Address) (b : Balances) (t : Nat)
    (hfair : rt.Fair) (hkeys : (GoMap.keys holders).Nodup)
    (hnn : ∀ e ∈ holders, 0 ≤ weightOf e.2)
    (hT : 0 < (buildWeights holders [] 0).2) (hA : (A, b) ∈ holders) :
    ((((Finset.range (buildWeights holders [] 0).2.toNat).filter (fun (r : Nat) =>
        scan (r : Int) (rt.rangeOrder t (buildWeights holders [] 0).1) 0 = some A)).card : Nat)
          : Int) = b.AR + b.AISTR + b.ALCH
      ∧ ((((Finset.range (buildWeights holders [] 0).2.toNat).filter (fun (raw : Nat) =>
        weightedRandomSelection ⟨rt.rangeOrder, rt.now, fun _ => raw⟩ holders 1 1
          = some [A])).card : Nat) : Int) = b.AR + b.AISTR + b.ALCH := by
  have hscan : ∀ u, (((Finset.range (buildWeights holders [] 0).2.toNat).filter
      (fun (r : Nat) => scan (r : Int) (rt.rangeOrder u (buildWeights holders [] 0).1) 0
        = some A)).card : Int) = b.AR + b.AISTR + b.ALCH := by
    intro u
    rw [buildWeights_nodup holders hkeys]
    simp only
    have hperm := hfair u (weightsOf holders)
    have hk : (GoMap.keys (rt.rangeOrder u (weightsOf holders))).Nodup := by
      have hk0 : (GoMap.keys (weightsOf holders)).Nodup := by
        simpa [GoMap.keys, weightsOf, Function.comp_def] using hkeys
      exact ((hperm.map Prod.fst).nodup_iff).2 hk0
    have hn : ∀ e ∈ rt.rangeOrder u (weightsOf holders), 0 ≤ e.2 := by
      intro e he
      obtain ⟨x, hx, hxe⟩ := List.mem_map.1 (hperm.subset he)
      rw [← hxe]
      exact hnn x hx
    have hmem : (A, weightOf b) ∈ rt.rangeOrder u (weightsOf holders) :=
      hperm.symm.subset (List.mem_map.2 ⟨(A, b), hA, rfl⟩)
    have hsum : sumWeights (rt.rangeOrder u (weightsOf holders))
        = sumWeights (weightsOf holders) := (hperm.map Prod.snd).sum_eq
    have hcount := scan_count _ hk hn A (weightOf b) hmem
    rw [hsum] at hcount
    rw [hcount]
    have := hnn (A, b) hA
    simp only [weightOf] at this ⊢
    omega
  refine ⟨hscan t, ?_⟩
  rw [← hscan 0]
  congr 2
  apply Finset.filter_congr
  intro raw hraw
  have hlt : (raw : Int) < (buildWeights holders [] 0).2 := by
    have := Finset.mem_range.1 hraw
    omega
  rw [selection_one]
  simp only [drawAt, bigRand_of_lt raw _ hlt]
  cases scan (raw : Int) (rt.rangeOrder 0 (buildWeights holders [] 0).1) 0 with
  | none => simp
  | some a => simp

/-- A count of `draw_proportional`: in a pool of weights 1 and 3, reversed enumeration,
the second holder is selected by three of the four values. -/
theorem draw_proportional_witness :
    ((((Finset.range (buildWeights [(1, ⟨1, 0, 0⟩), (2, ⟨0, 2, 1⟩)] [] 0).2.toNat).filter
        (fun (r : Nat) => scan (r : Int) ((Runtime.reversed (fun t => t)).rangeOrder 0
          (buildWeights [(1, ⟨1, 0, 0⟩), (2, ⟨0, 2, 1⟩)] [] 0).1) 0 = some 2)).card : Nat)
          : Int) = 0 + 2 + 1
      ∧ ((((Finset.range (buildWeights [(1, ⟨1, 0, 0⟩), (2, ⟨0, 2, 1⟩)] [] 0).2.toNat).filter
        (fun (raw : Nat) => weightedRandomSelection
          ⟨(Runtime.reversed (fun t => t)).rangeOrder, (Runtime.reversed (fun t => t)).now,
            fun _ => raw⟩ [(1, ⟨1, 0, 0⟩), (2, ⟨0, 2, 1⟩)] 1 1 = some [2])).card : Nat)
          : Int) = 0 + 2 + 1 :=
  draw_proportional (Runtime.reversed (fun t => t)) [(1, ⟨1, 0, 0⟩), (2, ⟨0, 2, 1⟩)]
    2 ⟨0, 2, 1⟩ 0 (Runtime.reversed_fair _) (by decide) (by decide) (by decide) (by decide)

/-! ## The balance aggregator -/

theorem GoMap.keys_set {κ ν : Type} [DecidableEq κ] (m : GoMap κ ν) (k : κ) (v : ν) :
    GoMap.keys (GoMap.set m k v) = if k ∈ GoMap.keys m then GoMap.keys m
      else GoMap.keys m ++ [k] := by
  induction m with
  | nil => simp [GoMap.set, GoMap.keys]
  | cons e rest ih =>
    obtain ⟨k', v'⟩ := e
    by_cases hk : k' = k
    · simp [GoMap.set, GoMap.keys, hk]
    · have hk' : ¬ k = k' := fun h => hk h.symm
      simp only [GoMap.keys] at ih
      simp only [GoMap.set, hk, if_false, GoMap.keys, List.map_cons, ih, List.mem_cons, hk',
        false_or]
      split <;> simp

theorem GoMap.nodup_set {κ ν : Type} [DecidableEq κ] (m : GoMap κ ν) (k : κ) (v : ν)
    (h : (GoMap.keys m).Nodup) : (GoMap.keys (GoMap.set m k v)).Nodup := by
  rw [GoMap.keys_set]
  split
  · exact h
  · rename_i hk
    exact List.nodup_append.2 ⟨h, by simp, by simpa using hk⟩

theorem GoMap.mem_set_iff {κ ν : Type} [DecidableEq κ] (m : GoMap κ ν) (k : κ) (v : ν)
    (h : (GoMap.keys m).Nodup) (e : κ × ν) :
    e ∈ GoMap.set m k v ↔ (e ∈ m ∧ e.1 ≠ k) ∨ e = (k, v) := by
  induction m with
  | nil => simp [GoMap.set]
  | cons x rest ih =>
    obtain ⟨k', v'⟩ := x
    simp only [GoMap.keys, List.map_cons, List.nodup_cons, List.mem_map, not_exists,
      not_and] at h
    by_cases hk : k' = k
    · subst hk
      simp only [GoMap.set, if_true, List.mem_cons]
      constructor
      · rintro (h1 | h1)
        · exact Or.inr h1
        · exact Or.inl ⟨Or.inr h1, fun he => h.1 e h1 he⟩
      · rintro (⟨h1 | h1, h2⟩ | h1)
        · exact absurd (by rw [h1]) h2
        · exact Or.inr h1
        · exact Or.inl h1
    · simp only [GoMap.set, hk, if_false, List.mem_cons, ih h.2]
      constructor
      · rintro (h1 | ⟨h1, h2⟩ | h1)
        · exact Or.inl ⟨Or.inl h1, by rw [h1]; exact hk⟩
        · exact Or.inl ⟨Or.inr h1, h2⟩
        · exact Or.inr h1
      · rintro (⟨h1 | h1, h2⟩ | h1)
        · exact Or.inl h1
        · exact Or.inr (Or.inl ⟨h1, h2⟩)
        · exact Or.inr (Or.inr h1)

theorem holdersStep_ok (c : Contracts) (client : Client) (blockNumber : Int) (holders : Pool)
    (address : Address) (ar aistr alch : Int)
    (h1 : getTokenBalance client c.ARContractAddress address blockNumber = .ok ar)
    (h2 : getTokenBalance client c.AISTRContractAddress address blockNumber = .ok aistr)
    (h3 : getTokenBalance client c.ALCHContractAddress address blockNumber = .ok alch) :
    holdersStep c client blockNumber holders address
      = .ok (if 0 < ar + aistr + alch then GoMap.set holders address ⟨ar, aistr, alch⟩
          else holders) := by
  simp only [holdersStep, h1, h2, h3, dropErr, totalBalance, bigAdd, Option.getD_some]
  split <;> rfl

theorem holdersStep_fail (c : Contracts) (client : Client) (blockNumber : Int) (holders : Pool)
    (address : Address)
    (h : ∃ contract ∈ [c.ARContractAddress, c.AISTRContractAddress, c.ALCHContractAddress],
      ∃ err, client contract address blockNumber = .error err) :
    holdersStep c client blockNumber holders address = .error .nilDereference := by
  obtain ⟨contract, hmem, err, herr⟩ := h
  simp only [List.mem_cons, List.mem_singleton, List.not_mem_nil, or_false] at hmem
  unfold holdersStep getTokenBalance
  rcases hmem with hc | hc | hc <;> subst hc <;> rw [herr]
  · simp [dropErr, totalBalance, bigAdd]
  · cases client c.ARContractAddress address blockNumber <;>
      simp [dropErr, totalBalance, bigAdd]
  · cases client c.ARContractAddress address blockNumber <;>
      cases client c.AISTRContractAddress address blockNumber <;>
      simp [dropErr, totalBalance, bigAdd]

theorem holdersLoop_fail (c : Contracts) (client : Client) (blockNumber : Int)
    (holderAddresses : List Address) (holders : Pool)
    (h : ∃ address ∈ holderAddresses,
      ∃ contract ∈ [c.ARContractAddress, c.AISTRContractAddress, c.ALCHContractAddress],
      ∃ err, client contract address blockNumber = .error err) :
    holdersLoop c client blockNumber holders holderAddresses = .error .nilDereference := by
  induction holderAddresses generalizing holders with
  | nil =>
    obtain ⟨a, ha, _⟩ := h
    simp at ha
  | cons x rest ih =>
    obtain ⟨a, ha, hfail⟩ := h
    cases hstep : holdersStep c client blockNumber holders x with
    | error p =>
      cases p
      simp [holdersLoop, hstep]
    | ok holders' =>
      simp only [holdersLoop, hstep]
      rcases List.mem_cons.1 ha with hax | hin
      · subst hax
        rw [holdersStep_fail c client blockNumber holders a hfail] at hstep
        cases hstep
      · exact ih holders' ⟨a, hin, hfail⟩

/-- After the loop over candidates whose queries succeed, the pool holds what it held
before together with the candidates of positive combined balance. -/
theorem holdersLoop_ok (c : Contracts) (client : Client) (blockNumber : Int)
    (ar aistr alch : Address → Int) (holderAddresses : List Address) (holders : Pool)
    (h1 : ∀ a ∈ holderAddresses,
      getTokenBalance client c.ARContractAddress a blockNumber = .ok (ar a))
    (h2 : ∀ a ∈ holderAddresses,
      getTokenBalance client c.AISTRContractAddress a blockNumber = .ok (aistr a))
    (h3 : ∀ a ∈ holderAddresses,
      getTokenBalance client c.ALCHContractAddress a blockNumber = .ok (alch a))
    (hkeys : (GoMap.keys holders).Nodup)
    (hgood : ∀ a b, (a, b) ∈ holders → b = ⟨ar a, aistr a, alch a⟩) :
    ∃ pool, holdersLoop c client blockNumber holders holderAddresses = .ok pool
      ∧ (GoMap.keys pool).Nodup
      ∧ ∀ a b, (a, b) ∈ pool ↔ ((a, b) ∈ holders
          ∨ (a ∈ holderAddresses ∧ b = ⟨ar a, aistr a, alch a⟩
              ∧ 0 < ar a + aistr a + alch a)) := by
  induction holderAddresses generalizing holders with
  | nil => exact ⟨holders, rfl, hkeys, by simp⟩
  | cons x rest ih =>
    have hstep := holdersStep_ok c client blockNumber holders x (ar x) (aistr x) (alch x)
      (h1 x (List.mem_cons_self _ _)) (h2 x (List.mem_cons_self _ _))
      (h3 x (List.mem_cons_self _ _))
    have hr1 : ∀ a ∈ rest, getTokenBalance client c.ARContractAddress a blockNumber
        = .ok (ar a) := fun a ha => h1 a (List.mem_cons_of_mem _ ha)
    have hr2 : ∀ a ∈ rest, getTokenBalance client c.AISTRContractAddress a blockNumber
        = .ok (aistr a) := fun a ha => h2 a (List.mem_cons_of_mem _ ha)
    have hr3 : ∀ a ∈ rest, getTokenBalance client c.ALCHContractAddress a blockNumber
        = .ok (alch a) := fun a ha => h3 a (List.mem_cons_of_mem _ ha)
    by_cases hpos : 0 < ar x + aistr x + alch x
    · rw [if_pos hpos] at hstep
      have hmem : ∀ a b, (a, b) ∈ GoMap.set holders x ⟨ar x, aistr x, alch x⟩
          ↔ ((a, b) ∈ holders ∨ (a = x ∧ b = ⟨ar a, aistr a, alch a⟩)) := by
        intro a b
        rw [GoMap.mem_set_iff holders x _ hkeys]
        constructor
        · rintro (⟨hin, _⟩ | heq)
          · exact Or.inl hin
          · have ha : a = x := congrArg Prod.fst heq
            have hb : b = ⟨ar x, aistr x, alch x⟩ := congrArg Prod.snd heq
            exact Or.inr ⟨ha, by rw [hb, ha]⟩
        · rintro (hin | ⟨ha, hb⟩)
          · by_cases hax : a = x
            · have := hgood a b hin
              exact Or.inr (by rw [this, hax])
            · exact Or.inl ⟨hin, hax⟩
          · exact Or.inr (by rw [hb, ha])
      obtain ⟨pool, hrun, hnd, hiff⟩ := ih (GoMap.set holders x ⟨ar x, aistr x, alch x⟩)
        hr1 hr2 hr3 (GoMap.nodup_set holders x _ hkeys) (by
          intro a b hab
          rcases (hmem a b).1 hab with hin | ⟨_, hb⟩
          · exact hgood a b hin
          · exact hb)
      refine ⟨pool, by simp only [holdersLoop, hstep, hrun], hnd, ?_⟩
      intro a b
      rw [hiff a b, hmem a b]
      constructor
      · rintro ((hin | ⟨ha, hb⟩) | ⟨ha, hb, hp⟩)
        · exact Or.inl hin
        · exact Or.inr ⟨by simp [ha], hb, by rw [ha]; exact hpos⟩
        · exact Or.inr ⟨List.mem_cons_of_mem _ ha, hb, hp⟩
      · rintro (hin | ⟨ha, hb, hp⟩)
        · exact Or.inl (Or.inl hin)
        · rcases List.mem_cons.1 ha with hax | hin
          · exact Or.inl (Or.inr ⟨hax, hb⟩)
          · exact Or.inr ⟨hin, hb, hp⟩
    · rw [if_neg hpos] at hstep
      obtain ⟨pool, hrun, hnd, hiff⟩ := ih holders hr1 hr2 hr3 hkeys hgood
      refine ⟨pool, by simp only [holdersLoop, hstep, hrun], hnd, ?_⟩
      intro a b
      rw [hiff a b]
      constructor
      · rintro (hin | ⟨ha, hb, hp⟩)
        · exact Or.inl hin
        · exact Or.inr ⟨List.mem_cons_of_mem _ ha, hb, hp⟩
      · rintro (hin | ⟨ha, hb, hp⟩)
        · exact Or.inl hin
        · rcases List.mem_cons.1 ha with hax | hin
          · exact absurd (by rw [← hax]; exact hp) hpos
          · exact Or.inr ⟨hin, hb, hp⟩

/-- C8: for unbounded non-negative balances, the sum computed by `getHoldersBalances` and
the weight recomputed by `weightedRandomSelection` (as stored in `weights` and accumulated
into `totalWeight`) are the exact sum of the three balances, also at and above `2^64`. -/
theorem combined_weight_exact (address : Address) (ar aistr alch : Nat) :
    totalBalance (some (ar : Int)) (some (aistr : Int)) (some (alch : Int))
        = .ok ((ar + aistr + alch : Nat) : Int)
      ∧ weightOf ⟨ar, aistr, alch⟩ = ((ar + aistr + alch : Nat) : Int)
      ∧ buildWeights [(address, ⟨ar, aistr, alch⟩)] [] 0
          = ([(address, ((ar + aistr + alch : Nat) : Int))], ((ar + aistr + alch : Nat) : Int))
      ∧ totalBalance (some 5) (some 0) (some 10) = .ok 15
      ∧ weightOf ⟨5, 0, 10⟩ = 15
      ∧ totalBalance (some (2 ^ 64)) (some (2 ^ 64)) (some 1) = .ok (2 ^ 65 + 1)
      ∧ weightOf ⟨2 ^ 64, 2 ^ 64, 1⟩ = 2 ^ 65 + 1 := by
  refine ⟨?_, ?_, ?_, ?_, ?_, ?_, ?_⟩
  · simp [totalBalance, bigAdd]
  · simp [weightOf]
  · simp [buildWeights, GoMap.set, weightOf]
  · simp [totalBalance, bigAdd]
  · simp [weightOf]
  · simp only [totalBalance, bigAdd]
    norm_num
  · simp only [weightOf]
    norm_num

/-- C9: when every balance query for the candidates succeeds, `getHoldersBalances` returns
a pool whose keys are exactly the candidates with a strictly positive sum of the three
balances, each key once, and each entry stores the three balances returned for its
address. -/
theorem getHoldersBalances_pool (c : Contracts) (client : Client) (blockNumber : Int)
    (ar aistr alch : Address → Int) (holderAddresses : List Address)
    (h1 : ∀ a ∈ holderAddresses,
      getTokenBalance client c.ARContractAddress a blockNumber = .ok (ar a))
    (h2 : ∀ a ∈ holderAddresses,
      getTokenBalance client c.AISTRContractAddress a blockNumber = .ok (aistr a))
    (h3 : ∀ a ∈ holderAddresses,
      getTokenBalance client c.ALCHContractAddress a blockNumber = .ok (alch a)) :
    ∃ pool, getHoldersBalances c client blockNumber holderAddresses = .ok pool
      ∧ (GoMap.keys pool).Nodup
      ∧ (∀ a, a ∈ GoMap.keys pool ↔ (a ∈ holderAddresses ∧ 0 < ar a + aistr a + alch a))
      ∧ ∀ a b, (a, b) ∈ pool → b = ⟨ar a, aistr a, alch a⟩ := by
  obtain ⟨pool, hrun, hnd, hiff⟩ := holdersLoop_ok c client blockNumber ar aistr alch
    holderAddresses [] h1 h2 h3 (by simp [GoMap.keys]) (by simp)
  refine ⟨pool, hrun, hnd, ?_, ?_⟩
  · intro a
    constructor
    · intro ha
      obtain ⟨e, he, hea⟩ := List.mem_map.1 ha
      obtain ⟨a', b⟩ := e
      simp only at hea
      subst hea
      rcases (hiff a' b).1 he with hnil | ⟨hin, _, hp⟩
      · simp at hnil
      · exact ⟨hin, hp⟩
    · rintro ⟨hin, hp⟩
      exact List.mem_map.2 ⟨(a, ⟨ar a, aistr a, alch a⟩),
        (hiff a _).2 (Or.inr ⟨hin, rfl, hp⟩), rfl⟩
  · intro a b hab
    rcases (hiff a b).1 hab with hnil | ⟨_, hb, _⟩
    · simp at hnil
    · exact hb

/-- A run of `getHoldersBalances_pool`: holder `3` owns nothing and holder `1` is listed
twice. -/
theorem getHoldersBalances_pool_witness :
    ∃ pool, getHoldersBalances demoContracts demoClient 12345678 [1, 3, 2, 1] = .ok pool
      ∧ (GoMap.keys pool).Nodup
      ∧ (∀ a, a ∈ GoMap.keys pool ↔ (a ∈ [1, 3, 2, 1]
          ∧ 0 < ((a % 3 : Nat) : Int) + ((a % 3 : Nat) : Int) + ((a % 3 : Nat) : Int)))
      ∧ ∀ a b, (a, b) ∈ pool
          → b = ⟨((a % 3 : Nat) : Int), ((a % 3 : Nat) : Int), ((a % 3 : Nat) : Int)⟩ :=
  getHoldersBalances_pool demoContracts demoClient 12345678
    (fun a => ((a % 3 : Nat) : Int)) (fun a => ((a % 3 : Nat) : Int))
    (fun a => ((a % 3 : Nat) : Int)) [1, 3, 2, 1]
    (by
      intro a ha
      simp only [List.mem_cons, List.mem_singleton, List.not_mem_nil, or_false] at ha
      rcases ha with rfl | rfl | rfl | rfl <;> rfl)
    (by
      intro a ha
      simp only [List.mem_cons, List.mem_singleton, List.not_mem_nil, or_false] at ha
      rcases ha with rfl | rfl | rfl | rfl <;> rfl)
    (by
      intro a ha
      simp only [List.mem_cons, List.mem_singleton, List.not_mem_nil, or_false] at ha
      rcases ha with rfl | rfl | rfl | rfl <;> rfl)

/-- C10: when the contract call fails for one candidate on one of the three ledgers,
`getHoldersBalances` returns no pool: the discarded error leaves a nil balance, and the
addition on it aborts the run. -/
theorem getHoldersBalances_failed_query (c : Contracts) (client : Client) (blockNumber : Int)
    (holderAddresses : List Address)
    (h : ∃ address ∈ holderAddresses,
      ∃ contract ∈ [c.ARContractAddress, c.AISTRContractAddress, c.ALCHContractAddress],
      ∃ err, client contract address blockNumber = .error err) :
    getHoldersBalances c client blockNumber holderAddresses = .error .nilDereference
      ∧ ∀ pool, getHoldersBalances c client blockNumber holderAddresses ≠ .ok pool := by
  have hfail := holdersLoop_fail c client blockNumber holderAddresses [] h
  refine ⟨hfail, ?_⟩
  intro pool hpool
  unfold getHoldersBalances at hpool
  rw [hfail] at hpool
  cases hpool

/-- A run of `getHoldersBalances_failed_query`: the second-ledger query of the last
candidate fails after two candidates were read successfully. -/
theorem getHoldersBalances_failed_query_witness :
    getHoldersBalances demoContracts demoClient 12345678 [1, 2, 9] = .error .nilDereference
      ∧ ∀ pool, getHoldersBalances demoContracts demoClient 12345678 [1, 2, 9] ≠ .ok pool :=
  getHoldersBalances_failed_query demoContracts demoClient 12345678 [1, 2, 9]
    ⟨9, by decide, 101, by decide, "timeout", rfl⟩

/-! ## No winners asked for -/

/-- C11: for every pool (the empty pool and pools of total weight zero included),
`weightedRandomSelection` with `K = 0` returns the empty list; it does so with no loop
iteration allowed, hence without a draw. -/
theorem selection_zero_winners (rt : Runtime) (holders : List (Address × Balances))
    (fuel : Nat) :
    weightedRandomSelection rt holders 0 0 = some []
      ∧ weightedRandomSelection rt holders 0 fuel = some [] := by
  refine ⟨by simp [weightedRandomSelection, drawLoop], ?_⟩
  cases fuel <;> simp [weightedRandomSelection, drawLoop]

/-! ## Every draw selects -/

theorem drawLoop_fuel (rt : Runtime) (weights : GoMap Address Int) (totalWeight : Int)
    (numWinners : Int) (fuel t : Nat) (winners ws : List Address)
    (h : drawLoop rt weights totalWeight numWinners fuel t winners = some ws) :
    numWinners.toNat - winners.length ≤ fuel := by
  induction fuel generalizing t winners with
  | zero =>
    by_cases hlt : (winners.length : Int) < numWinners
    · simp [drawLoop, hlt] at h
    · omega
  | succ fuel ih =>
    by_cases hlt : (winners.length : Int) < numWinners
    · cases hs : scan (bigRand (rt.source (rt.now t)) totalWeight) (rt.rangeOrder t weights) 0 with
      | none =>
        simp only [drawLoop, hlt, if_true, hs] at h
        have := ih (t + 1) winners h
        omega
      | some a =>
        simp only [drawLoop, hlt, if_true, hs] at h
        have := ih (t + 1) (winners ++ [a]) h
        simp only [List.length_append, List.length_singleton] at this
        omega
    · omega

/-- C16: for a pool with distinct keys and positive total `T` (non-negative weights are
not needed), every fair enumeration order and every `r` with `0 ≤ r < T`, the cumulative
scan selects an entry; so the loop returns `K` winners after `K` iterations and does not
return with fewer iterations, for every `K ≥ 0`. -/
theorem draw_never_misses (rt : Runtime) (holders : List (Address × Balances))
    (numWinners : Int) (hfair : rt.Fair) (hkeys : (GoMap.keys holders).Nodup)
    (hT : 0 < (buildWeights holders [] 0).2) (hK : 0 ≤ numWinners) :
    (∀ t r, 0 ≤ r → r < (buildWeights holders [] 0).2 →
        ∃ a, scan r (rt.rangeOrder t (buildWeights holders [] 0).1) 0 = some a)
      ∧ (∃ winners, weightedRandomSelection rt holders numWinners numWinners.toNat
            = some winners ∧ (winners.length : Int) = numWinners)
      ∧ ∀ fuel, fuel < numWinners.toNat →
          weightedRandomSelection rt holders numWinners fuel = none := by
  refine ⟨?_, ?_, ?_⟩
  · intro t r hr0 hrT
    apply scan_hit r _ 0 hr0
    rw [buildWeights_nodup holders hkeys] at hrT ⊢
    simp only at hrT ⊢
    have hsum : sumWeights (rt.rangeOrder t (weightsOf holders))
        = sumWeights (weightsOf holders) := ((hfair t (weightsOf holders)).map Prod.snd).sum_eq
    rw [hsum, zero_add]
    exact hrT
  · have hrun := selection_eq rt holders numWinners _ hfair hkeys hT (le_refl _)
    refine ⟨_, hrun, ?_⟩
    have := drawLoop_length rt _ _ numWinners _ 0 [] _ hrun (by simp)
    omega
  · intro fuel hfuel
    cases hrun : weightedRandomSelection rt holders numWinners fuel with
    | none => rfl
    | some ws =>
      have := drawLoop_fuel rt _ _ numWinners fuel 0 [] ws hrun
      simp only [List.length_nil] at this
      omega

/-- A run of `draw_never_misses`: two holders, four winners. -/
theorem draw_never_misses_witness :
    (∀ t r, 0 ≤ r → r < (buildWeights poolTwo [] 0).2 →
        ∃ a, scan r ((Runtime.reversed (fun t => t)).rangeOrder t
          (buildWeights poolTwo [] 0).1) 0 = some a)
      ∧ (∃ winners, weightedRandomSelection (Runtime.reversed (fun t => t)) poolTwo 4
            (4 : Int).toNat = some winners ∧ (winners.length : Int) = 4)
      ∧ ∀ fuel, fuel < (4 : Int).toNat →
          weightedRandomSelection (Runtime.reversed (fun t => t)) poolTwo 4 fuel = none :=
  draw_never_misses (Runtime.reversed (fun t => t)) poolTwo 4
    (Runtime.reversed_fair _) (by decide) (by decide) (by decide)

/-! ## Reproducibility of the snapshot -/

theorem holdersStep_congr (c : Contracts) (client₁ client₂ : Client) (blockNumber : Int)
    (holders : Pool) (address : Address)
    (h : ∀ contract ∈ [c.ARContractAddress, c.AISTRContractAddress, c.ALCHContractAddress],
      client₁ contract address blockNumber = client₂ contract address blockNumber) :
    holdersStep c client₁ blockNumber holders address
      = holdersStep c client₂ blockNumber holders address := by
  have h1 := h c.ARContractAddress (by simp)
  have h2 := h c.AISTRContractAddress (by simp)
  have h3 := h c.ALCHContractAddress (by simp)
  simp only [holdersStep, getTokenBalance, h1, h2, h3]

/-- C13: for every candidate list and height `B`, two ledger views that answer alike the
queries of the three contracts for the candidates at height `B` give the same result of
`getHoldersBalances` (the same pool, or both no pool), whatever they answer elsewhere. -/
theorem getHoldersBalances_snapshot (c : Contracts) (client₁ client₂ : Client)
    (blockNumber : Int) (holderAddresses : List Address)
    (h : ∀ address ∈ holderAddresses,
      ∀ contract ∈ [c.ARContractAddress, c.AISTRContractAddress, c.ALCHContractAddress],
      client₁ contract address blockNumber = client₂ contract address blockNumber) :
    getHoldersBalances c client₁ blockNumber holderAddresses
      = getHoldersBalances c client₂ blockNumber holderAddresses := by
  unfold getHoldersBalances
  generalize ([] : Pool) = holders
  induction holderAddresses generalizing holders with
  | nil => rfl
  | cons x rest ih =>
    have hx := holdersStep_congr c client₁ client₂ blockNumber holders x
      (h x (List.mem_cons_self _ _))
    simp only [holdersLoop, hx]
    cases holdersStep c client₂ blockNumber holders x with
    | error p => rfl
    | ok holders' => exact ih (fun a ha => h a (List.mem_cons_of_mem _ ha)) holders'

/-- A run of `getHoldersBalances_snapshot`: the second view has no state at any other
height, and both give the pool of holders `1` and `2`. -/
theorem getHoldersBalances_snapshot_witness :
    getHoldersBalances demoContracts demoClient 12345678 [1, 3, 2]
        = .ok [(1, ⟨1, 1, 1⟩), (2, ⟨2, 2, 2⟩)]
      ∧ getHoldersBalances demoContracts demoClient 12345678 [1, 3, 2]
        = getHoldersBalances demoContracts demoClientPruned 12345678 [1, 3, 2] :=
  ⟨rfl, getHoldersBalances_snapshot demoContracts demoClient demoClientPruned 12345678
    [1, 3, 2] (fun _ _ _ _ => rfl)⟩

/-! ## Decoding of the return data -/

theorem foldl_bigEndian (buf : List Byte) (acc : Nat) :
    buf.foldl (fun acc b => acc * 256 + b.val) acc
      = acc * 256 ^ buf.length + bigEndianValue buf := by
  induction buf generalizing acc with
  | nil => simp [bigEndianValue]
  | cons b rest ih =>
    simp only [List.foldl_cons, ih, bigEndianValue, List.length_cons]
    ring

/-- C17: for every return data `result` of a successful contract call, `getTokenBalance`
returns without error the non-negative integer whose big-endian base-256 representation is
`result`, of unbounded size; empty return data gives `0`. -/
theorem getTokenBalance_decodes (client : Client) (contractAddress holderAddress : Address)
    (blockNumber : Int) (result : List Byte)
    (h : client contractAddress holderAddress blockNumber = .ok result) :
    getTokenBalance client contractAddress holderAddress blockNumber
        = .ok ((bigEndianValue result : Nat) : Int)
      ∧ (0 : Int) ≤ ((bigEndianValue result : Nat) : Int)
      ∧ (result = [] →
          getTokenBalance client contractAddress holderAddress blockNumber = .ok 0) := by
  have hv : setBytes result = ((bigEndianValue result : Nat) : Int) := by
    simp [setBytes, foldl_bigEndian]
  refine ⟨by simp only [getTokenBalance, h, hv], Int.natCast_nonneg _, ?_⟩
  intro hnil
  subst hnil
  simp only [getTokenBalance, h]
  rfl

/-- A run of `getTokenBalance_decodes`: nine bytes of return data decode to `2^64`. -/
theorem getTokenBalance_decodes_witness :
    bigEndianValue [1, 0, 0, 0, 0, 0, 0, 0, 0] = 2 ^ 64
      ∧ getTokenBalance (fun _ _ _ => .ok [1, 0, 0, 0, 0, 0, 0, 0, 0]) 100 2 12345678
          = .ok ((bigEndianValue [1, 0, 0, 0, 0, 0, 0, 0, 0] : Nat) : Int)
      ∧ (0 : Int) ≤ ((bigEndianValue [1, 0, 0, 0, 0, 0, 0, 0, 0] : Nat) : Int)
      ∧ (([1, 0, 0, 0, 0, 0, 0, 0, 0] : List Byte) = [] →
          getTokenBalance (fun _ _ _ => .ok [1, 0, 0, 0, 0, 0, 0, 0, 0]) 100 2 12345678
            = .ok 0) :=
  ⟨by decide, getTokenBalance_decodes (fun _ _ _ => .ok [1, 0, 0, 0, 0, 0, 0, 0, 0])
    100 2 12345678 [1, 0, 0, 0, 0, 0, 0, 0, 0] rfl⟩

/-! ## Repeated candidates -/

/-- C18: when every balance query succeeds, `getHoldersBalances` returns for a candidate
list and for the list with repeated addresses removed pools with the same entries, each
key once: the same map. -/
theorem getHoldersBalances_duplicates (c : Contracts) (client : Client) (blockNumber : Int)
    (ar aistr alch : Address → Int) (holderAddresses : List Address)
    (h1 : ∀ a ∈ holderAddresses,
      getTokenBalance client c.ARContractAddress a blockNumber = .ok (ar a))
    (h2 : ∀ a ∈ holderAddresses,
      getTokenBalance client c.AISTRContractAddress a blockNumber = .ok (aistr a))
    (h3 : ∀ a ∈ holderAddresses,
      getTokenBalance client c.ALCHContractAddress a blockNumber = .ok (alch a)) :
    ∃ pool pool', getHoldersBalances c client blockNumber holderAddresses = .ok pool
      ∧ getHoldersBalances c client blockNumber holderAddresses.dedup = .ok pool'
      ∧ (GoMap.keys pool).Nodup ∧ (GoMap.keys pool').Nodup
      ∧ (∀ e, e ∈ pool ↔ e ∈ pool') ∧ pool.Perm pool' := by
  obtain ⟨pool, hrun, hnd, hiff⟩ := holdersLoop_ok c client blockNumber ar aistr alch
    holderAddresses [] h1 h2 h3 (by simp [GoMap.keys]) (by simp)
  obtain ⟨pool', hrun', hnd', hiff'⟩ := holdersLoop_ok c client blockNumber ar aistr alch
    holderAddresses.dedup [] (fun a ha => h1 a (List.mem_dedup.1 ha))
    (fun a ha => h2 a (List.mem_dedup.1 ha)) (fun a ha => h3 a (List.mem_dedup.1 ha))
    (by simp [GoMap.keys]) (by simp)
  have hsame : ∀ e, e ∈ pool ↔ e ∈ pool' := by
    rintro ⟨a, b⟩
    rw [hiff a b, hiff' a b, List.mem_dedup]
  exact ⟨pool, pool', hrun, hrun', hnd, hnd', hsame,
    (List.perm_ext_iff_of_nodup (List.Nodup.of_map _ hnd) (List.Nodup.of_map _ hnd')).2 hsame⟩

/-- A run of `getHoldersBalances_duplicates`: holder `1` is listed three times. -/
theorem getHoldersBalances_duplicates_witness :
    getHoldersBalances demoContracts demoClient 12345678 [1, 2, 1, 1]
        = .ok [(1, ⟨1, 1, 1⟩), (2, ⟨2, 2, 2⟩)]
      ∧ ∃ pool pool', getHoldersBalances demoContracts demoClient 12345678 [1, 2, 1, 1]
          = .ok pool
        ∧ getHoldersBalances demoContracts demoClient 12345678 [1, 2, 1, 1].dedup = .ok pool'
        ∧ (GoMap.keys pool).Nodup ∧ (GoMap.keys pool').Nodup
        ∧ (∀ e, e ∈ pool ↔ e ∈ pool') ∧ pool.Perm pool' :=
  ⟨rfl, getHoldersBalances_duplicates demoContracts demoClient 12345678
    (fun a => ((a % 3 : Nat) : Int)) (fun a => ((a % 3 : Nat) : Int))
    (fun a => ((a % 3 : Nat) : Int)) [1, 2, 1, 1]
    (by
      intro a ha
      simp only [List.mem_cons, List.mem_singleton, List.not_mem_nil, or_false] at ha
      rcases ha with rfl | rfl | rfl | rfl <;> rfl)
    (by
      intro a ha
      simp only [List.mem_cons, List.mem_singleton, List.not_mem_nil, or_false] at ha
      rcases ha with rfl | rfl | rfl | rfl <;> rfl)
    (by
      intro a ha
      simp only [List.mem_cons, List.mem_singleton, List.not_mem_nil, or_false] at ha
      rcases ha with rfl | rfl | rfl | rfl <;> rfl)⟩

/-! ## The random source of a draw -/

theorem filterMap_const {α : Type} (f : Nat → Option α) (a : α) (hf : ∀ t, f t = some a)
    (s n : Nat) : (List.range' s n).filterMap f = List.replicate n a := by
  induction n generalizing s with
  | zero => rfl
  | succ n ih =>
    rw [List.range'_succ, List.filterMap_cons, hf s, ih (s + 1)]
    rfl

/-- C15 is violated by the code: every draw builds a source seeded with the clock reading
of that draw, so two draws that read the same clock value get the same random value; in a
run whose draws all read the same clock value and enumerate the weights alike, every
winner is the same address. -/
theorem selection_frozen_clock (rt : Runtime) (holders : List (Address × Balances))
    (numWinners : Int) (hfair : rt.Fair) (hkeys : (GoMap.keys holders).Nodup)
    (hT : 0 < (buildWeights holders [] 0).2)
    (hclock : ∀ t, rt.now t = rt.now 0)
    (horder : ∀ t, rt.rangeOrder t (buildWeights holders [] 0).1
      = rt.rangeOrder 0 (buildWeights holders [] 0).1) :
    (∀ i j, bigRand (rt.source (rt.now i)) (buildWeights holders [] 0).2
        = bigRand (rt.source (rt.now j)) (buildWeights holders [] 0).2)
      ∧ ∃ a, weightedRandomSelection rt holders numWinners numWinners.toNat
          = some (List.replicate numWinners.toNat a) := by
  refine ⟨fun i j => by rw [hclock i, hclock j], ?_⟩
  obtain ⟨a, ha⟩ := drawAt_hit rt holders hfair hkeys hT 0
  refine ⟨a, ?_⟩
  rw [selection_eq rt holders numWinners _ hfair hkeys hT (le_refl _)]
  congr 1
  apply filterMap_const
  intro t
  rw [← ha]
  simp only [drawAt, hclock t, horder t]

/-- A run of `selection_frozen_clock`: the clock reads `0` at every draw although the
generator differs from seed to seed, and the first holder wins three times. -/
theorem selection_frozen_clock_witness :
    weightedRandomSelection ⟨fun _ m => m, fun _ => 0, fun s => s.toNat⟩ poolTwo 3 3
        = some [1, 1, 1]
      ∧ (∀ i j, bigRand ((fun (s : Int) => s.toNat) ((fun (_ : Nat) => (0 : Int)) i))
            (buildWeights poolTwo [] 0).2
          = bigRand ((fun (s : Int) => s.toNat) ((fun (_ : Nat) => (0 : Int)) j))
            (buildWeights poolTwo [] 0).2)
      ∧ ∃ a, weightedRandomSelection ⟨fun _ m => m, fun _ => 0, fun s => s.toNat⟩ poolTwo 3
          (3 : Int).toNat = some (List.replicate (3 : Int).toNat a) :=
  ⟨by decide, selection_frozen_clock ⟨fun _ m => m, fun _ => 0, fun s => s.toNat⟩ poolTwo 3
    (fun _ _ => List.Perm.refl _) (by decide) (by decide) (fun _ => rfl) (fun _ => rfl)⟩

/-! ## The heap -/

theorem Heap.add_val_self (h : Heap) (z x y : Nat) :
    (h.add z x y).val z = h.val x + h.val y := by
  simp [Heap.add]

theorem Heap.add_val_ne (h : Heap) (z x y l : Nat) (hl : l ≠ z) :
    (h.add z x y).val l = h.val l := by
  simp [Heap.add, Function.update_noteq hl]

theorem Heap.add_next (h : Heap) (z x y : Nat) : (h.add z x y).next = h.next := rfl

theorem Heap.alloc_val_self (h : Heap) (v : Int) : (h.alloc v).2.val h.next = v := by
  simp [Heap.alloc]

theorem Heap.alloc_val_ne (h : Heap) (v : Int) (l : Nat) (hl : l ≠ h.next) :
    (h.alloc v).2.val l = h.val l := by
  simp [Heap.alloc, Function.update_noteq hl]

theorem Heap.alloc_next (h : Heap) (v : Int) : (h.alloc v).2.next = h.next + 1 := rfl

theorem Heap.alloc_loc (h : Heap) (v : Int) : (h.alloc v).1 = h.next := rfl

theorem Heap.weights_congr (h h' : Heap) (ws : GoMap Address Nat)
    (hv : ∀ e ∈ ws, h'.val e.2 = h.val e.2) : h'.weights ws = h.weights ws := by
  unfold Heap.weights
  apply List.map_congr_left
  intro e he
  rw [hv e he]

theorem Heap.pool_congr (h h' : Heap) (holders : RefPool) (B : Nat)
    (hB : ∀ e ∈ holders, e.2.AR < B ∧ e.2.AISTR < B ∧ e.2.ALCH < B)
    (hv : ∀ l, l < B → h'.val l = h.val l) : h'.pool holders = h.pool holders := by
  unfold Heap.pool
  apply List.map_congr_left
  intro e he
  obtain ⟨h1, h2, h3⟩ := hB e he
  simp only [Heap.balances, hv _ h1, hv _ h2, hv _ h3]

theorem Heap.weights_set (h : Heap) (ws : GoMap Address Nat) (a : Address) (w : Nat) :
    h.weights (GoMap.set ws a w) = GoMap.set (h.weights ws) a (h.val w) := by
  induction ws with
  | nil => rfl
  | cons e rest ih =>
    obtain ⟨a', w'⟩ := e
    unfold Heap.weights at ih ⊢
    by_cases hk : a' = a
    · simp [GoMap.set, hk]
    · simp only [GoMap.set, hk, if_false, List.map_cons, ih]

/-! ## The inner loop with pointers -/

theorem scanMem_frame (r cw : Nat) (l : List (Address × Nat)) (h : Heap) :
    (scanMem r l cw h).2.next = h.next
      ∧ ∀ loc, loc ≠ cw → (scanMem r l cw h).2.val loc = h.val loc := by
  induction l generalizing h with
  | nil => exact ⟨rfl, fun _ _ => rfl⟩
  | cons e rest ih =>
    obtain ⟨a, w⟩ := e
    simp only [scanMem]
    split
    · exact ⟨rfl, fun loc hloc => Heap.add_val_ne h cw cw w loc hloc⟩
    · obtain ⟨h1, h2⟩ := ih (h.add cw cw w)
      exact ⟨h1, fun loc hloc => by rw [h2 loc hloc, Heap.add_val_ne h cw cw w loc hloc]⟩

theorem scanMem_scan (r cw : Nat) (l : List (Address × Nat)) (h : Heap) (hr : r ≠ cw)
    (hl : ∀ e ∈ l, e.2 ≠ cw) :
    (scanMem r l cw h).1 = scan (h.val r) (h.weights l) (h.val cw) := by
  induction l generalizing h with
  | nil => rfl
  | cons e rest ih =>
    obtain ⟨a, w⟩ := e
    have hw : w ≠ cw := hl (a, w) (List.mem_cons_self _ _)
    have hrest : ∀ e ∈ rest, e.2 ≠ cw := fun e he => hl e (List.mem_cons_of_mem _ he)
    have hcw : (h.add cw cw w).val cw = h.val cw + h.val w := Heap.add_val_self h cw cw w
    have hrv : (h.add cw cw w).val r = h.val r := Heap.add_val_ne h cw cw w r hr
    have hws : (h.add cw cw w).weights rest = h.weights rest :=
      Heap.weights_congr h _ rest (fun e he => Heap.add_val_ne h cw cw w e.2 (hrest e he))
    simp only [scanMem, hcw, hrv, Heap.weights, List.map_cons, scan]
    split
    · rfl
    · rw [ih (h.add cw cw w) hrest, hcw, hrv, hws]
      rfl

/-! ## The outer loop with pointers -/

theorem drawStep_eq (rt : Runtime) (order : Nat → GoMap Address Nat → List (Address × Nat))
    (t : Nat) (s : Sampler) :
    drawStep rt order t s
      = ⟨(scanMem s.heap.next (order t s.weights) (s.heap.next + 1)
            ((s.heap.alloc (bigRand (rt.source (rt.now t))
              (s.heap.val s.totalWeight))).2.alloc 0).2).2,
          s.weights, s.totalWeight,
          s.winners ++ (scanMem s.heap.next (order t s.weights) (s.heap.next + 1)
            ((s.heap.alloc (bigRand (rt.source (rt.now t))
              (s.heap.val s.totalWeight))).2.alloc 0).2).1.toList⟩ := by
  unfold drawStep
  simp only [Heap.alloc_loc, Heap.alloc_next]
  rcases hres : scanMem s.heap.next (order t s.weights) (s.heap.next + 1)
      ((s.heap.alloc (bigRand (rt.source (rt.now t))
        (s.heap.val s.totalWeight))).2.alloc 0).2 with ⟨_ | a, h₃⟩
  · simp
  · simp

/-- One iteration leaves `weights` and `totalWeight` pointing where they did, allocates
two locations and changes no value at a location allocated before. -/
theorem drawStep_frame (rt : Runtime) (order : Nat → GoMap Address Nat → List (Address × Nat))
    (t : Nat) (s : Sampler) :
    (drawStep rt order t s).weights = s.weights
      ∧ (drawStep rt order t s).totalWeight = s.totalWeight
      ∧ (drawStep rt order t s).heap.next = s.heap.next + 2
      ∧ ∀ loc, loc < s.heap.next → (drawStep rt order t s).heap.val loc = s.heap.val loc := by
  rw [drawStep_eq]
  refine ⟨rfl, rfl, ?_, ?_⟩
  · simp only
    rw [(scanMem_frame _ _ _ _).1]
    rfl
  · intro loc hloc
    simp only
    rw [(scanMem_frame _ _ _ _).2 loc (by omega),
      Heap.alloc_val_ne _ _ loc (by simp only [Heap.alloc_next]; omega),
      Heap.alloc_val_ne _ _ loc (by omega)]

theorem drawsMem_frame (rt : Runtime) (order : Nat → GoMap Address Nat → List (Address × Nat))
    (numWinners : Int) (n t : Nat) (s : Sampler) :
    (drawsMem rt order numWinners n t s).weights = s.weights
      ∧ (drawsMem rt order numWinners n t s).totalWeight = s.totalWeight
      ∧ s.heap.next ≤ (drawsMem rt order numWinners n t s).heap.next
      ∧ ∀ loc, loc < s.heap.next →
          (drawsMem rt order numWinners n t s).heap.val loc = s.heap.val loc := by
  induction n generalizing t s with
  | zero => exact ⟨rfl, rfl, le_refl _, fun _ _ => rfl⟩
  | succ n ih =>
    by_cases hlt : (s.winners.length : Int) < numWinners
    · simp only [drawsMem, hlt, if_true]
      obtain ⟨h1, h2, h3, h4⟩ := ih (t + 1) (drawStep rt order t s)
      obtain ⟨g1, g2, g3, g4⟩ := drawStep_frame rt order t s
      refine ⟨h1.trans g1, h2.trans g2, by omega, ?_⟩
      intro loc hloc
      rw [h4 loc (by omega), g4 loc hloc]
    · simp [drawsMem, hlt]

/-! ## The first loop with pointers -/

/-- The first loop writes to `totalWeight` and to fresh locations only, and what it leaves
in `weights` and `totalWeight` is what `buildWeights` computes on the values. -/
theorem buildWeightsMem_spec (l : List (Address × BalanceRefs)) (ws : GoMap Address Nat)
    (tw : Nat) (h : Heap) (B : Nat)
    (hl : ∀ e ∈ l, e.2.AR < B ∧ e.2.AISTR < B ∧ e.2.ALCH < B)
    (hB : B ≤ tw) (htw : tw < h.next) (hws : ∀ e ∈ ws, tw < e.2 ∧ e.2 < h.next) :
    h.next ≤ (buildWeightsMem l ws tw h).2.next
      ∧ (∀ loc, loc < h.next → loc ≠ tw → (buildWeightsMem l ws tw h).2.val loc = h.val loc)
      ∧ (∀ e ∈ (buildWeightsMem l ws tw h).1,
          tw < e.2 ∧ e.2 < (buildWeightsMem l ws tw h).2.next)
      ∧ (buildWeightsMem l ws tw h).2.weights (buildWeightsMem l ws tw h).1
          = (buildWeights (h.pool l) (h.weights ws) (h.val tw)).1
      ∧ (buildWeightsMem l ws tw h).2.val tw
          = (buildWeights (h.pool l) (h.weights ws) (h.val tw)).2 := by
  induction l generalizing ws h with
  | nil =>
    exact ⟨le_refl _, fun _ _ _ => rfl, hws, rfl, rfl⟩
  | cons x rest ih =>
    obtain ⟨a, b⟩ := x
    have hb : b.AR < B ∧ b.AISTR < B ∧ b.ALCH < B := hl (a, b) (List.mem_cons_self _ _)
    obtain ⟨hAR, hAISTR, hALCH⟩ := hb
    have hrest : ∀ e ∈ rest, e.2.AR < B ∧ e.2.AISTR < B ∧ e.2.ALCH < B :=
      fun e he => hl e (List.mem_cons_of_mem _ he)
    -- the heap after the body of the loop
    let h' : Heap := ((((h.alloc 0).2.add h.next b.AR b.AISTR).add h.next h.next b.ALCH).add
      tw tw h.next)
    have hstep : buildWeightsMem ((a, b) :: rest) ws tw h
        = buildWeightsMem rest (GoMap.set ws a h.next) tw h' := rfl
    have hnext : h'.next = h.next + 1 := rfl
    have hold : ∀ loc, loc < h.next → loc ≠ tw → h'.val loc = h.val loc := by
      intro loc hloc hne
      simp only [h']
      rw [Heap.add_val_ne _ _ _ _ _ hne, Heap.add_val_ne _ _ _ _ _ (by omega),
        Heap.add_val_ne _ _ _ _ _ (by omega), Heap.alloc_val_ne _ _ _ (by omega)]
    have hweight : h'.val h.next = weightOf (h.balances b) := by
      simp only [h']
      rw [Heap.add_val_ne _ _ _ _ _ (by omega), Heap.add_val_self, Heap.add_val_self,
        Heap.add_val_ne _ _ _ _ _ (by omega), Heap.alloc_val_ne _ _ _ (by omega),
        Heap.alloc_val_ne _ _ _ (by omega), Heap.alloc_val_ne _ _ _ (by omega)]
      rfl
    have htotal : h'.val tw = h.val tw + weightOf (h.balances b) := by
      have h1 : h'.val tw = (((h.alloc 0).2.add h.next b.AR b.AISTR).add h.next h.next
          b.ALCH).val tw + (((h.alloc 0).2.add h.next b.AR b.AISTR).add h.next h.next
          b.ALCH).val h.next := Heap.add_val_self _ _ _ _
      rw [h1, Heap.add_val_ne _ _ _ _ _ (by omega), Heap.add_val_ne _ _ _ _ _ (by omega),
        Heap.alloc_val_ne _ _ _ (by omega), Heap.add_val_self, Heap.add_val_self,
        Heap.add_val_ne _ _ _ _ _ (by omega), Heap.alloc_val_ne _ _ _ (by omega),
        Heap.alloc_val_ne _ _ _ (by omega), Heap.alloc_val_ne _ _ _ (by omega)]
      rfl
    have hws' : ∀ e ∈ GoMap.set ws a h.next, tw < e.2 ∧ e.2 < h'.next := by
      intro e he
      rcases GoMap.mem_set ws a h.next e he with hin | heq
      · have := hws e hin
        exact ⟨this.1, by rw [hnext]; omega⟩
      · rw [heq, hnext]
        exact ⟨htw, by simp⟩
    obtain ⟨i1, i2, i3, i4, i5⟩ := ih (GoMap.set ws a h.next) h' hrest
      (by rw [hnext]; omega) hws'
    have hpool : h'.pool rest = h.pool rest :=
      Heap.pool_congr h h' rest B hrest (fun loc hloc => hold loc (by omega) (by omega))
    have hwts : h'.weights (GoMap.set ws a h.next)
        = GoMap.set (h.weights ws) a (weightOf (h.balances b)) := by
      rw [Heap.weights_set, hweight]
      congr 1
      exact Heap.weights_congr h h' ws (fun e he => by
        have := hws e he
        exact hold e.2 this.2 (by omega))
    rw [hstep]
    refine ⟨by rw [hnext] at i1; omega, ?_, i3, ?_, ?_⟩
    · intro loc hloc hne
      rw [i2 loc (by rw [hnext]; omega) hne, hold loc hloc hne]
    · rw [i4, hpool, hwts, htotal]
      rfl
    · rw [i5, hpool, hwts, htotal]
      rfl

/-- The state in which the outer loop is reached: `totalWeight` and the values in
`weights` are fresh, they hold what `buildWeights` computes from the balances pointed to,
and no value at a location allocated before the call has changed. -/
theorem samplerInit_spec (holders : List (Address × BalanceRefs)) (h : Heap)
    (hwf : ∀ e ∈ holders, e.2.AR < h.next ∧ e.2.AISTR < h.next ∧ e.2.ALCH < h.next) :
    (samplerInit holders h).totalWeight < (samplerInit holders h).heap.next
      ∧ (∀ e ∈ (samplerInit holders h).weights, e.2 < (samplerInit holders h).heap.next)
      ∧ h.next ≤ (samplerInit holders h).heap.next
      ∧ (∀ loc, loc < h.next → (samplerInit holders h).heap.val loc = h.val loc)
      ∧ (samplerInit holders h).heap.weights (samplerInit holders h).weights
          = (buildWeights (h.pool holders) [] 0).1
      ∧ (samplerInit holders h).heap.val (samplerInit holders h).totalWeight
          = (buildWeights (h.pool holders) [] 0).2 := by
  have hnext : (h.alloc 0).2.next = h.next + 1 := rfl
  obtain ⟨i1, i2, i3, i4, i5⟩ := buildWeightsMem_spec holders [] h.next (h.alloc 0).2 h.next
    hwf (le_refl _) (by rw [hnext]; omega) (by simp)
  have hpool : (h.alloc 0).2.pool holders = h.pool holders :=
    Heap.pool_congr h _ holders h.next hwf
      (fun loc hloc => Heap.alloc_val_ne h 0 loc (by omega))
  have hzero : (h.alloc 0).2.val h.next = 0 := Heap.alloc_val_self h 0
  have hnil : (h.alloc 0).2.weights [] = [] := rfl
  rw [hpool, hzero, hnil] at i4 i5
  rw [hnext] at i1 i2
  refine ⟨?_, ?_, ?_, ?_, i4, i5⟩
  · show h.next < (buildWeightsMem holders [] h.next (h.alloc 0).2).2.next
    omega
  · intro e he
    exact (i3 e he).2
  · show h.next ≤ (buildWeightsMem holders [] h.next (h.alloc 0).2).2.next
    omega
  · intro loc hloc
    show (buildWeightsMem holders [] h.next (h.alloc 0).2).2.val loc = h.val loc
    rw [i2 loc (by omega) (by omega), Heap.alloc_val_ne h 0 loc (by omega)]

/-- The pointer-level outer loop selects what `drawLoop` selects on the values, when the
maps of locations are enumerated in the order the maps of their values are. -/
theorem drawsMem_refines (rt : Runtime) (order : Nat → GoMap Address Nat → List (Address × Nat))
    (numWinners : Int) (hfair : ∀ t m, (order t m).Perm m)
    (hlink : ∀ t m (v : Nat → Int), (order t m).map (fun e => (e.1, v e.2))
      = rt.rangeOrder t (m.map (fun e => (e.1, v e.2))))
    (n t : Nat) (s : Sampler) (htw : s.totalWeight < s.heap.next)
    (hws : ∀ e ∈ s.weights, e.2 < s.heap.next) :
    (if ((drawsMem rt order numWinners n t s).winners.length : Int) < numWinners then none
      else some (drawsMem rt order numWinners n t s).winners)
      = drawLoop rt (s.heap.weights s.weights) (s.heap.val s.totalWeight) numWinners n t
          s.winners := by
  induction n generalizing t s with
  | zero => simp [drawsMem, drawLoop]
  | succ n ih =>
    by_cases hlt : (s.winners.length : Int) < numWinners
    · obtain ⟨g1, g2, g3, g4⟩ := drawStep_frame rt order t s
      have hws' : ∀ e ∈ (drawStep rt order t s).weights, e.2 < (drawStep rt order t s).heap.next := by
        intro e he
        rw [g1] at he
        have := hws e he
        omega
      have hW : (drawStep rt order t s).heap.weights (drawStep rt order t s).weights
          = s.heap.weights s.weights := by
        rw [g1]
        exact Heap.weights_congr _ _ _ (fun e he => g4 e.2 (hws e he))
      have hT : (drawStep rt order t s).heap.val (drawStep rt order t s).totalWeight
          = s.heap.val s.totalWeight := by
        rw [g2]
        exact g4 _ htw
      have ih' := ih (t + 1) (drawStep rt order t s) (by rw [g2, g3]; omega) hws'
      rw [hW, hT] at ih'
      simp only [drawsMem, hlt, if_true, ih', drawLoop]
      -- what the scan of this iteration selects
      have hsel : (scanMem s.heap.next (order t s.weights) (s.heap.next + 1)
          ((s.heap.alloc (bigRand (rt.source (rt.now t))
            (s.heap.val s.totalWeight))).2.alloc 0).2).1
          = scan (bigRand (rt.source (rt.now t)) (s.heap.val s.totalWeight))
              (rt.rangeOrder t (s.heap.weights s.weights)) 0 := by
        rw [scanMem_scan _ _ _ _ (by omega) (fun e he => by
          have := hws e ((hfair t s.weights).subset he)
          omega)]
        have hr : ((s.heap.alloc (bigRand (rt.source (rt.now t))
            (s.heap.val s.totalWeight))).2.alloc 0).2.val s.heap.next
            = bigRand (rt.source (rt.now t)) (s.heap.val s.totalWeight) := by
          rw [Heap.alloc_val_ne _ _ _ (by simp only [Heap.alloc_next]; omega),
            Heap.alloc_val_self]
        have hc : ((s.heap.alloc (bigRand (rt.source (rt.now t))
            (s.heap.val s.totalWeight))).2.alloc 0).2.val (s.heap.next + 1) = 0 :=
          Heap.alloc_val_self _ 0
        have hl : ((s.heap.alloc (bigRand (rt.source (rt.now t))
            (s.heap.val s.totalWeight))).2.alloc 0).2.weights (order t s.weights)
            = rt.rangeOrder t (s.heap.weights s.weights) := by
          unfold Heap.weights
          rw [hlink t s.weights]
          congr 1
          apply List.map_congr_left
          intro e he
          have := hws e he
          rw [Heap.alloc_val_ne _ _ _ (by simp only [Heap.alloc_next]; omega),
            Heap.alloc_val_ne _ _ _ (by omega)]
        rw [hr, hc, hl]
      have hwin : (drawStep rt order t s).winners = s.winners
          ++ (scan (bigRand (rt.source (rt.now t)) (s.heap.val s.totalWeight))
              (rt.rangeOrder t (s.heap.weights s.weights)) 0).toList := by
        rw [drawStep_eq, hsel]
      rw [hwin]
      cases scan (bigRand (rt.source (rt.now t)) (s.heap.val s.totalWeight))
          (rt.rangeOrder t (s.heap.weights s.weights)) 0 with
      | none => simp
      | some a => simp
    · simp [drawsMem, drawLoop, hlt]

/-- The pointer-level sampler returns the winners `weightedRandomSelection` returns on the
pool read through the heap, and returns whenever it does. -/
theorem selectionMem_refines (rt : Runtime)
    (order : Nat → GoMap Address Nat → List (Address × Nat))
    (holders : List (Address × BalanceRefs)) (numWinners : Int) (fuel : Nat) (h : Heap)
    (hfair : ∀ t m, (order t m).Perm m)
    (hlink : ∀ t m (v : Nat → Int), (order t m).map (fun e => (e.1, v e.2))
      = rt.rangeOrder t (m.map (fun e => (e.1, v e.2))))
    (hwf : ∀ e ∈ holders, e.2.AR < h.next ∧ e.2.AISTR < h.next ∧ e.2.ALCH < h.next) :
    (weightedRandomSelectionMem rt order holders numWinners fuel h).map Prod.fst
      = weightedRandomSelection rt (h.pool holders) numWinners fuel := by
  obtain ⟨s1, s2, _, _, s5, s6⟩ := samplerInit_spec holders h hwf
  have href := drawsMem_refines rt order numWinners hfair hlink fuel 0
    (samplerInit holders h) s1 s2
  rw [s5, s6] at href
  have hnil : (samplerInit holders h).winners = [] := rfl
  rw [hnil] at href
  unfold weightedRandomSelection
  rw [← href]
  unfold weightedRandomSelectionMem
  simp only
  split <;> rfl

/-! ## The working set of a draw -/

/-- C12, as stated, fails: with two holders of one token each, `K = 2` and random value
`0`, the first draw selects holder `1`; at the start of the second draw `weights` still
holds holder `1` and `totalWeight` is still `2`, not the weight `1` of the holder left. -/
theorem draws_keep_selected_address :
    (drawsMem (Runtime.ofDraws (fun _ => 0)) (fun _ m => m) 2 1 0
        (samplerInit refPoolTwo heapTwo)).winners = [1]
      ∧ (drawsMem (Runtime.ofDraws (fun _ => 0)) (fun _ m => m) 2 1 0
          (samplerInit refPoolTwo heapTwo)).heap.weights
          (drawsMem (Runtime.ofDraws (fun _ => 0)) (fun _ m => m) 2 1 0
            (samplerInit refPoolTwo heapTwo)).weights = [(1, 1), (2, 1)]
      ∧ (drawsMem (Runtime.ofDraws (fun _ => 0)) (fun _ m => m) 2 1 0
          (samplerInit refPoolTwo heapTwo)).heap.val
          (drawsMem (Runtime.ofDraws (fun _ => 0)) (fun _ m => m) 2 1 0
            (samplerInit refPoolTwo heapTwo)).totalWeight = 2
      ∧ sumWeights ([(1, 1), (2, 1)].filter (fun e => decide (e.1 ∉ [1]))) = 1 := by
  refine ⟨by decide, by decide, by decide, by decide⟩

/-- C12, amended: at the start of every draw (after any number of iterations of the outer
loop) the working set `weights` holds every address of the pool with its weight, whatever
was selected before, and `totalWeight` is the sum of the weights of all pool entries. -/
theorem draws_working_set (rt : Runtime)
    (order : Nat → GoMap Address Nat → List (Address × Nat))
    (holders : List (Address × BalanceRefs)) (numWinners : Int) (h : Heap) (n : Nat)
    (hwf : ∀ e ∈ holders, e.2.AR < h.next ∧ e.2.AISTR < h.next ∧ e.2.ALCH < h.next)
    (hkeys : (GoMap.keys holders).Nodup) :
    (drawsMem rt order numWinners n 0 (samplerInit holders h)).heap.weights
        (drawsMem rt order numWinners n 0 (samplerInit holders h)).weights
        = weightsOf (h.pool holders)
      ∧ (drawsMem rt order numWinners n 0 (samplerInit holders h)).heap.val
          (drawsMem rt order numWinners n 0 (samplerInit holders h)).totalWeight
        = sumWeights (weightsOf (h.pool holders)) := by
  obtain ⟨s1, s2, _, _, s5, s6⟩ := samplerInit_spec holders h hwf
  obtain ⟨f1, f2, _, f4⟩ := drawsMem_frame rt order numWinners n 0 (samplerInit holders h)
  have hk : (GoMap.keys (h.pool holders)).Nodup := by
    simpa [GoMap.keys, Heap.pool, Function.comp_def] using hkeys
  have hb := buildWeights_nodup (h.pool holders) hk
  rw [hb] at s5 s6
  simp only at s5 s6
  constructor
  · rw [f1, ← s5]
    exact Heap.weights_congr _ _ _ (fun e he => f4 e.2 (s2 e he))
  · rw [f2, ← s6]
    exact f4 _ s1

/-- The working set of `draws_working_set` after two draws on two holders. -/
theorem draws_working_set_witness :
    (drawsMem (Runtime.ofDraws (fun t => t)) (fun _ m => m) 3 2 0
        (samplerInit refPoolTwo heapTwo)).winners = [1, 2]
      ∧ (drawsMem (Runtime.ofDraws (fun t => t)) (fun _ m => m) 3 2 0
          (samplerInit refPoolTwo heapTwo)).heap.weights
          (drawsMem (Runtime.ofDraws (fun t => t)) (fun _ m => m) 3 2 0
            (samplerInit refPoolTwo heapTwo)).weights
          = weightsOf (heapTwo.pool refPoolTwo)
      ∧ (drawsMem (Runtime.ofDraws (fun t => t)) (fun _ m => m) 3 2 0
          (samplerInit refPoolTwo heapTwo)).heap.val
          (drawsMem (Runtime.ofDraws (fun t => t)) (fun _ m => m) 3 2 0
            (samplerInit refPoolTwo heapTwo)).totalWeight
          = sumWeights (weightsOf (heapTwo.pool refPoolTwo)) :=
  ⟨by decide, draws_working_set (Runtime.ofDraws (fun t => t)) (fun _ m => m) refPoolTwo 3
    heapTwo 2 (by decide) (by decide)⟩

/-! ## The caller's pool after the call -/

/-- C14: whenever `weightedRandomSelection` returns, every `big.Int` allocated before the
call holds the value it held, so the pool read after the call has the same keys and the
same three balances per key as before: the function writes only to values it allocated
itself (`totalWeight`, the entries of `weights`, `r`, `cumulativeWeight`). -/
theorem selection_frame (rt : Runtime)
    (order : Nat → GoMap Address Nat → List (Address × Nat))
    (holders : List (Address × BalanceRefs)) (numWinners : Int) (fuel : Nat) (h h' : Heap)
    (winners : List Address)
    (hwf : ∀ e ∈ holders, e.2.AR < h.next ∧ e.2.AISTR < h.next ∧ e.2.ALCH < h.next)
    (hrun : weightedRandomSelectionMem rt order holders numWinners fuel h
      = some (winners, h')) :
    h.next ≤ h'.next ∧ (∀ loc, loc < h.next → h'.val loc = h.val loc)
      ∧ h'.pool holders = h.pool holders := by
  obtain ⟨_, _, s3, s4, _, _⟩ := samplerInit_spec holders h hwf
  obtain ⟨_, _, f3, f4⟩ := drawsMem_frame rt order numWinners fuel 0 (samplerInit holders h)
  have hheap : h' = (drawsMem rt order numWinners fuel 0 (samplerInit holders h)).heap := by
    unfold weightedRandomSelectionMem at hrun
    simp only at hrun
    split at hrun
    · cases hrun
    · simp only [Option.some.injEq, Prod.mk.injEq] at hrun
      exact hrun.2.symm
  have hval : ∀ loc, loc < h.next → h'.val loc = h.val loc := by
    intro loc hloc
    rw [hheap, f4 loc (by omega), s4 loc hloc]
  exact ⟨by rw [hheap]; omega, hval, Heap.pool_congr h h' holders h.next hwf hval⟩

/-- A run of `selection_frame`: three draws on two holders leave their six balances as
they were. -/
theorem selection_frame_witness :
    weightedRandomSelectionMem (Runtime.ofDraws (fun t => t)) (fun _ m => m) refPoolTwo 3 3
        heapTwo = some ([1, 2, 1], heapTwoAfter)
      ∧ heapTwo.next ≤ heapTwoAfter.next
      ∧ (∀ loc, loc < heapTwo.next → heapTwoAfter.val loc = heapTwo.val loc)
      ∧ heapTwoAfter.pool refPoolTwo = heapTwo.pool refPoolTwo :=
  ⟨rfl, selection_frame (Runtime.ofDraws (fun t => t)) (fun _ m => m) refPoolTwo 3 3
    heapTwo heapTwoAfter [1, 2, 1] (by decide) rfl⟩

end FordaosWorld
